import Mathlib

/-!
Verification of the SSA register allocator in
`src/asahi/compiler/agx_register_allocate.c`.

Registers are numbered in 16-bit sub-units.  The occupancy bitset
`used_regs[cls]` is modelled as a `Finset ℕ` of occupied sub-units; a value's
contiguous allocation `[reg, reg + ncomps)` is modelled as `Finset.Ico`.
Machine `unsigned` arithmetic is modelled on `ℕ` with explicit reduction
modulo `2^32` where the C code computes in `unsigned`.
-/

namespace AgxRA

/-- Register classes, from `enum ra_class`: general purpose (`RA_GPR`)
and memory/stack slots (`RA_MEM`). -/
inductive RAClass
  | gpr
  | mem
deriving DecidableEq, Repr

/-- Doubling loop for `util_next_power_of_two`: starting from the power of
two `acc`, double until reaching at least `n` (`fuel` bounds the number of
doublings; `fuel = n` always suffices). -/
def nextPow2Go (n : ℕ) : ℕ → ℕ → ℕ
  | 0, acc => acc
  | fuel + 1, acc => if n ≤ acc then acc else nextPow2Go n fuel (acc * 2)

/-- The C helper `util_next_power_of_two`: the smallest power of two that is at least
`n` (and `1` for `n = 0`), as used to round up vector widths. -/
def nextPow2 (n : ℕ) : ℕ := nextPow2Go n n 1

theorem nextPow2Go_spec (n : ℕ) :
    ∀ (fuel acc j : ℕ), acc = 2 ^ j → n ≤ acc * 2 ^ fuel →
      (∃ k, nextPow2Go n fuel acc = 2 ^ k) ∧
        n ≤ nextPow2Go n fuel acc ∧ acc ≤ nextPow2Go n fuel acc ∧
        (∀ i, n ≤ 2 ^ i → acc ≤ 2 ^ i → nextPow2Go n fuel acc ≤ 2 ^ i) := by
  intro fuel
  induction fuel with
  | zero =>
    intro acc j hj hle
    simp only [pow_zero, mul_one] at hle
    exact ⟨⟨j, hj⟩, hle, le_rfl, fun i _ h2 => h2⟩
  | succ fuel ih =>
    intro acc j hj hle
    by_cases hna : n ≤ acc
    · simp only [nextPow2Go, if_pos hna]
      exact ⟨⟨j, hj⟩, hna, le_rfl, fun i _ h2 => h2⟩
    · simp only [nextPow2Go, if_neg hna]
      have hj2 : acc * 2 = 2 ^ (j + 1) := by rw [hj, pow_succ]
      have hle2 : n ≤ acc * 2 * 2 ^ fuel := by
        have : acc * 2 ^ (fuel + 1) = acc * 2 * 2 ^ fuel := by ring
        omega
      obtain ⟨hpow, hge, hacc, hmin⟩ := ih (acc * 2) (j + 1) hj2 hle2
      refine ⟨hpow, hge, by omega, ?_⟩
      intro i hni hai
      refine hmin i hni ?_
      have hji : j < i := by
        by_contra hcon
        have : 2 ^ i ≤ 2 ^ j := Nat.pow_le_pow_right (by norm_num) (by omega)
        omega
      have : 2 ^ (j + 1) ≤ 2 ^ i := Nat.pow_le_pow_right (by norm_num) (by omega)
      omega

theorem le_nextPow2 (n : ℕ) : n ≤ nextPow2 n := by
  have h := nextPow2Go_spec n n 1 0 (by norm_num)
    (by simpa using Nat.le_of_lt (Nat.lt_two_pow n))
  exact h.2.1

theorem nextPow2_pos (n : ℕ) : 0 < nextPow2 n := by
  have h := nextPow2Go_spec n n 1 0 (by norm_num)
    (by simpa using Nat.le_of_lt (Nat.lt_two_pow n))
  exact h.2.2.1

/-- The function `nextPow2` always returns a power of two. -/
theorem nextPow2_isPow (n : ℕ) : ∃ k, nextPow2 n = 2 ^ k := by
  have h := nextPow2Go_spec n n 1 0 (by norm_num)
    (by simpa using Nat.le_of_lt (Nat.lt_two_pow n))
  exact h.1

theorem nextPow2_min (n i : ℕ) (h : n ≤ 2 ^ i) : nextPow2 n ≤ 2 ^ i := by
  have hs := nextPow2Go_spec n n 1 0 (by norm_num)
    (by simpa using Nat.le_of_lt (Nat.lt_two_pow n))
  exact hs.2.2.2 i h (Nat.one_le_two_pow)

theorem nextPow2_pow (k : ℕ) : nextPow2 (2 ^ k) = 2 ^ k := by
  have h1 := le_nextPow2 (2 ^ k)
  have h2 := nextPow2_min (2 ^ k) k le_rfl
  omega

theorem nextPow2_idem (n : ℕ) : nextPow2 (nextPow2 n) = nextPow2 n := by
  obtain ⟨k, hk⟩ := nextPow2_isPow n
  rw [hk, nextPow2_pow]

/-- Reduction modulo `2^32`, the semantics of C `unsigned` values. -/
def u32 (n : ℕ) : ℕ := n % 4294967296

/-- C `unsigned` subtraction `a - b` (wrapping), for `b ≤ 2^32`. -/
def usub (a b : ℕ) : ℕ := u32 (a + 4294967296 - b)

/-- C `unsigned` addition `a + b` (wrapping). -/
def uadd (a b : ℕ) : ℕ := u32 (a + b)

theorem usub_eq_sub {a b : ℕ} (hb : b ≤ a) (ha : a < 4294967296) :
    usub a b = a - b := by
  unfold usub u32
  have h : a + 4294967296 - b = (a - b) + 4294967296 := by omega
  rw [h, Nat.add_mod_right, Nat.mod_eq_of_lt (by omega)]

theorem uadd_eq_add {a b : ℕ} (h : a + b < 4294967296) : uadd a b = a + b := by
  unfold uadd u32
  exact Nat.mod_eq_of_lt h

/-! ## C1: `assign_regs` preserves the no-interference invariant

`assign_regs` (register_allocate.c) claims the contiguous range
`[reg, reg + ncomps[v])` for a freshly defined SSA value `v`:
it asserts that the range is within bounds and that no sub-unit of the
range is set in `used_regs[cls]`, then sets all of those bits.
We model the per-class allocation state as the occupancy bitset together
with the (ghost) list of currently-live assigned values whose ranges it
covers. -/

/-- One live value's concrete allocation: the SSA value id, its first
register (`ssa_to_reg[v]`) and its width in sub-units (`ncomps[v]`). -/
structure Alloc where
  value : ℕ
  reg : ℕ
  width : ℕ
deriving DecidableEq, Repr

/-- The half-open register range `[reg, reg + width)` that an allocation
occupies. -/
def Alloc.range (a : Alloc) : Finset ℕ := Finset.Ico a.reg (a.reg + a.width)

/-- Per-class allocation state of `struct ra_ctx`: the currently-live
assigned values (ghost) and the occupancy bitset `used_regs[cls]`. -/
structure RAState where
  live : List Alloc
  used : Finset ℕ
deriving DecidableEq

/-- The union of the ranges of a list of allocations. -/
def rangeUnion (l : List Alloc) : Finset ℕ :=
  l.foldr (fun a u => a.range ∪ u) ∅

/-- The operation `assign_regs (rctx, v, reg)`: record the assignment of value `a.value`
to `[a.reg, a.reg + a.width)` and set the corresponding occupancy bits
(`BITSET_SET_RANGE (used_regs[cls], reg, end)`). -/
def assign_regs (s : RAState) (a : Alloc) : RAState :=
  { live := a :: s.live, used := s.used ∪ a.range }

/-- State invariant after any allocation step, for a class with register
file bound `bound`: every live range lies in `[0, bound)`, live ranges are
pairwise disjoint, and the occupancy bitset is exactly their union. -/
def RAInv (bound : ℕ) (s : RAState) : Prop :=
  (∀ a ∈ s.live, a.reg + a.width ≤ bound) ∧
  s.live.Pairwise (fun a b => Disjoint a.range b.range) ∧
  s.used = rangeUnion s.live

instance (bound : ℕ) (s : RAState) : Decidable (RAInv bound s) := by
  unfold RAInv; infer_instance

theorem mem_rangeUnion_of_mem {l : List Alloc} {a : Alloc} (h : a ∈ l) :
    a.range ⊆ rangeUnion l := by
  induction l with
  | nil => cases h
  | cons b t ih =>
    rcases List.mem_cons.mp h with rfl | ht
    · exact Finset.subset_union_left
    · exact (ih ht).trans Finset.subset_union_right

/-- C1 — whenever `assign_regs` claims a range whose occupancy bits are all
clear (the `"no interference"` assertion) and which lies within the class
bound, the allocation invariant is preserved: afterwards the ranges of
currently-live values of the class are still pairwise disjoint, all lie in
`[0, bound)`, and the occupancy bitset is exactly their union. -/
theorem assign_regs_no_interference (bound : ℕ) (s : RAState) (a : Alloc)
    (hinv : RAInv bound s)
    (hfree : Disjoint a.range s.used)
    (hbound : a.reg + a.width ≤ bound) :
    RAInv bound (assign_regs s a) := by
  obtain ⟨hb, hdisj, hused⟩ := hinv
  refine ⟨?_, ?_, ?_⟩
  · intro x hx
    rcases List.mem_cons.mp hx with rfl | hx
    · exact hbound
    · exact hb x hx
  · refine List.Pairwise.cons ?_ hdisj
    intro b hbmem
    have hsub : b.range ⊆ s.used := hused ▸ mem_rangeUnion_of_mem hbmem
    exact Finset.disjoint_of_subset_right hsub hfree
  · show s.used ∪ a.range = a.range ∪ rangeUnion s.live
    rw [hused, Finset.union_comm]

/-- Witness for C1 at a concrete state: one live value in `r0..r1`, a fresh
value assigned to `r2..r3`, bound 4. -/
theorem assign_regs_no_interference_witness :
    RAInv 4 (assign_regs ⟨[⟨0, 0, 2⟩], Finset.Ico 0 2⟩ ⟨1, 2, 2⟩) :=
  assign_regs_no_interference 4 ⟨[⟨0, 0, 2⟩], Finset.Ico 0 2⟩ ⟨1, 2, 2⟩
    (by decide) (by decide) (by decide)

/-! ## Program model for the demand estimator (C2)

`agx_calc_register_demand` only looks at: whether an instruction is a PHI,
its SSA sources (`agx_foreach_ssa_src`; a source with the kill flag is
asserted to be `AGX_INDEX_NORMAL`, and `agx_is_equiv` never identifies an
SSA source with a non-SSA operand, so non-SSA operands are irrelevant and
omitted from the model), and its SSA destinations
(`agx_foreach_ssa_dest`). -/

/-- An SSA source operand: value id, kill flag (last use), and register
class (the `memory` bit of the `agx_index`, via `ra_class_for_index`). -/
structure Src where
  value : ℕ
  kill : Bool
  cls : RAClass
deriving DecidableEq, Repr

/-- An SSA destination operand: value id, raw size in 16-bit sub-units
(`agx_index_size_16`), and register class. -/
structure Dst where
  value : ℕ
  size16 : ℕ
  cls : RAClass
deriving DecidableEq, Repr

/-- An instruction, stripped to what the demand walk observes. -/
structure Instr where
  isPhi : Bool
  srcs : List Src
  dsts : List Dst
deriving DecidableEq, Repr

/-- A basic block: its live-in set (`block->live_in`) and its instructions
in order. -/
structure Block where
  live_in : Finset ℕ
  instrs : List Instr
deriving DecidableEq

/-- A program: blocks in order plus the `any_cf` flag (the program uses
control flow, so the nesting counter `r0l` is reserved). -/
structure Program where
  blocks : List Block
  any_cf : Bool
deriving DecidableEq

/-- All SSA destinations of the program, in order
(`agx_foreach_instr_global` + `agx_foreach_ssa_dest`). -/
def progDsts (p : Program) : List Dst :=
  (p.blocks.map (fun b => (b.instrs.map (fun I => I.dsts)).flatten)).flatten

/-- The width table gathered by `agx_calc_register_demand`:
`widths[v] = util_next_power_of_two(agx_index_size_16(dest))`, stored into
a `uint8_t`, and `0` (`calloc`) for values never defined. -/
def gatherWidth (p : Program) (v : ℕ) : ℕ :=
  match (progDsts p).find? (fun d => d.value == v) with
  | some d => nextPow2 d.size16 % 256
  | none => 0

/-- The class table gathered by `agx_calc_register_demand`:
`classes[v] = ra_class_for_index(dest)`, and `RA_GPR` (numeric `0`, from
`calloc`) for values never defined. -/
def gatherClass (p : Program) (v : ℕ) : RAClass :=
  match (progDsts p).find? (fun d => d.value == v) with
  | some d => d.cls
  | none => RAClass.gpr

/-- The set of values killed by an instruction: the values of its sources
carrying the kill flag. -/
def killedSet (I : Instr) : Finset ℕ :=
  ((I.srcs.filter (fun s => s.kill)).map (fun s => s.value)).toFinset

/-- The set of values defined by an instruction. -/
def destSet (I : Instr) : Finset ℕ :=
  (I.dsts.map (fun d => d.value)).toFinset

/-- The total (rounded) width of the general-purpose values in a set of
values. Used both by the embedded estimator (the live-in seeding loop adds
`widths[i]` for every general-purpose live-in value) and by the reference
live-set semantics. -/
def gprSum (w : ℕ → ℕ) (cls : ℕ → RAClass) (L : Finset ℕ) : ℕ :=
  ∑ v ∈ L.filter (fun v => cls v = RAClass.gpr), w v

/-- The "kill sources the first time we see them" loop: walk the sources
left to right, deducting `widths[src->value]` from the running demand for
each killed general-purpose source that is not `agx_is_equiv` to an
earlier source of the same instruction (`seen` holds the values of the
earlier sources). C `unsigned` subtraction. -/
def killDemandStep (w : ℕ → ℕ) : List Src → List ℕ → ℕ → ℕ
  | [], _, demand => demand
  | s :: rest, seen, demand =>
    killDemandStep w rest (s.value :: seen)
      (if s.kill ∧ s.cls = RAClass.gpr ∧ s.value ∉ seen then
        usub demand (w s.value)
      else demand)

/-- The "make destinations live" loop: for each general-purpose SSA
destination, add the power-of-two-rounded width `pot_width` to the demand
and accumulate the rounding excess `pot_width - real_width` into the
late-kill counter. The accumulator is `(demand, late_kill_count)`. -/
def destDemandStep (w : ℕ → ℕ) : List Dst → ℕ × ℕ → ℕ × ℕ
  | [], acc => acc
  | d :: rest, acc =>
    if d.cls = RAClass.gpr then
      destDemandStep w rest
        (uadd acc.1 (nextPow2 (w d.value)),
         uadd acc.2 (nextPow2 (w d.value) - w d.value))
    else destDemandStep w rest acc

/-- State of the per-block demand walk: the running demand, the late-kill
carryover from the previous instruction, and the rolling maximum. -/
structure DemandSt where
  demand : ℕ
  lateKill : ℕ
  maxDemand : ℕ
deriving DecidableEq, Repr

/-- The demand and late-kill counter after one non-phi instruction: deduct
the late-kill carryover, deduct killed sources (first occurrence only),
then add rounded destination widths recording the rounding excess. -/
def instrDemand (w : ℕ → ℕ) (st : DemandSt) (I : Instr) : ℕ × ℕ :=
  destDemandStep w I.dsts
    (killDemandStep w I.srcs [] (usub st.demand st.lateKill), 0)

/-- The per-instruction body of the demand walk: phis are skipped (already
accounted for by the live-in set); otherwise update demand and late-kill
and fold the new demand into the rolling maximum. -/
def demandInstrStep (w : ℕ → ℕ) (st : DemandSt) (I : Instr) : DemandSt :=
  if I.isPhi then st
  else
    { demand := (instrDemand w st I).1,
      lateKill := (instrDemand w st I).2,
      maxDemand := max st.maxDemand (instrDemand w st I).1 }

/-- The per-block demand walk of `agx_calc_register_demand`: seed the
demand with the nesting counter (if any control flow is used) plus the
total width of general-purpose live-in values, fold the rolling maximum
into the incoming `max_demand`, then process each instruction. (The C
code increments `demand` one `uint` addition at a time; stepwise wrapping
addition agrees with a single reduction of the sum modulo `2^32`.) -/
def blockDemand (w : ℕ → ℕ) (cls : ℕ → RAClass) (cf : Bool) (maxd : ℕ)
    (b : Block) : ℕ :=
  (b.instrs.foldl (demandInstrStep w)
    { demand := u32 ((if cf then 1 else 0) + gprSum w cls b.live_in),
      lateKill := 0,
      maxDemand :=
        max maxd (u32 ((if cf then 1 else 0) + gprSum w cls b.live_in)) }).maxDemand

/-- The estimator `agx_calc_register_demand`: gather widths and classes from the
program's destinations, then compute the rolling maximum of the per-block
walks. -/
def calcRegisterDemand (p : Program) : ℕ :=
  p.blocks.foldl (blockDemand (gatherWidth p) (gatherClass p) p.any_cf) 0

/-! Reference (specification) liveness semantics for a block. -/

/-- The live set after one instruction: phis execute logically at the
block entry (their destinations are part of `live_in`) and do not change
the set; a non-phi instruction removes its killed sources and adds its
destinations. -/
def liveStep (L : Finset ℕ) (I : Instr) : Finset ℕ :=
  if I.isPhi then L else (L \ killedSet I) ∪ destSet I

/-- The live set after a prefix of a block's instructions. -/
def liveAfter (live_in : Finset ℕ) (instrs : List Instr) : Finset ℕ :=
  instrs.foldl liveStep live_in

/-- The true maximum, over all points of a block (before, between and after
its instructions), of the total width of simultaneously live
general-purpose values. -/
def maxLiveSum (w : ℕ → ℕ) (cls : ℕ → RAClass) (L : Finset ℕ) :
    List Instr → ℕ
  | [] => gprSum w cls L
  | I :: rest => max (gprSum w cls L) (maxLiveSum w cls (liveStep L I) rest)

/-- Liveness well-formedness of one instruction against the current live
set `L`: killed sources are currently live, destinations are fresh and
pairwise distinct, duplicate sources agree on their kill flag, operand
classes agree with the class table, and destination widths are already
powers of two (as the gather pass produces). Trivial for phis, which the
estimator skips. -/
def WFInstr (w : ℕ → ℕ) (cls : ℕ → RAClass) (L : Finset ℕ) (I : Instr) :
    Prop :=
  ¬I.isPhi = true →
    killedSet I ⊆ L ∧
    (∀ d ∈ I.dsts, d.value ∉ L) ∧
    (I.dsts.map (fun d => d.value)).Nodup ∧
    (∀ s ∈ I.srcs, ∀ t ∈ I.srcs, s.value = t.value → s.kill = t.kill) ∧
    (∀ s ∈ I.srcs, s.cls = cls s.value) ∧
    (∀ d ∈ I.dsts, d.cls = cls d.value) ∧
    (∀ d ∈ I.dsts, nextPow2 (w d.value) = w d.value)

instance (w : ℕ → ℕ) (cls : ℕ → RAClass) (L : Finset ℕ) (I : Instr) :
    Decidable (WFInstr w cls L I) := by
  unfold WFInstr; infer_instance

/-- Liveness well-formedness of an instruction list, threading the live
set through `liveStep`. -/
def WFInstrs (w : ℕ → ℕ) (cls : ℕ → RAClass) :
    Finset ℕ → List Instr → Prop
  | _, [] => True
  | L, I :: rest => WFInstr w cls L I ∧ WFInstrs w cls (liveStep L I) rest

instance instDecWFInstrs (w : ℕ → ℕ) (cls : ℕ → RAClass) :
    (L : Finset ℕ) → (instrs : List Instr) →
      Decidable (WFInstrs w cls L instrs)
  | _, [] => isTrue trivial
  | L, I :: rest =>
    haveI := instDecWFInstrs w cls (liveStep L I) rest
    inferInstanceAs
      (Decidable (WFInstr w cls L I ∧ WFInstrs w cls (liveStep L I) rest))

/-! Correctness lemmas for the demand walk. -/

/-- The set of values the kill loop deducts: values of killed
general-purpose sources. -/
def killedGpr (srcs : List Src) : Finset ℕ :=
  ((srcs.filter (fun s => s.kill && (s.cls == RAClass.gpr))).map
    (fun s => s.value)).toFinset

theorem mem_killedGpr {srcs : List Src} {v : ℕ} :
    v ∈ killedGpr srcs ↔
      ∃ s ∈ srcs, s.kill = true ∧ s.cls = RAClass.gpr ∧ s.value = v := by
  simp only [killedGpr, List.mem_toFinset, List.mem_map, List.mem_filter,
    Bool.and_eq_true, beq_iff_eq]
  constructor
  · rintro ⟨s, ⟨hs, hk, hg⟩, hv⟩
    exact ⟨s, hs, hk, hg, hv⟩
  · rintro ⟨s, hs, hk, hg, hv⟩
    exact ⟨s, ⟨hs, hk, hg⟩, hv⟩

theorem killedGpr_cons_pos {s : Src} {rest : List Src}
    (hk : s.kill = true) (hg : s.cls = RAClass.gpr) :
    killedGpr (s :: rest) = insert s.value (killedGpr rest) := by
  simp [killedGpr, List.filter_cons, hk, hg]

theorem killedGpr_cons_neg {s : Src} {rest : List Src}
    (h : ¬(s.kill = true ∧ s.cls = RAClass.gpr)) :
    killedGpr (s :: rest) = killedGpr rest := by
  have : (s.kill && (s.cls == RAClass.gpr)) = false := by
    rcases Bool.eq_false_or_eq_true s.kill with hk | hk
    · have : ¬s.cls = RAClass.gpr := fun hc => h ⟨hk, hc⟩
      simp [hk, this]
    · simp [hk]
  simp [killedGpr, List.filter_cons, this]

theorem killDemandStep_spec (w : ℕ → ℕ) :
    ∀ (srcs : List Src),
      (∀ s ∈ srcs, ∀ t ∈ srcs, s.value = t.value → s.kill = t.kill) →
      (∀ s ∈ srcs, ∀ t ∈ srcs, s.value = t.value → s.cls = t.cls) →
      ∀ (seen : List ℕ) (demand : ℕ),
        (∑ v ∈ killedGpr srcs \ seen.toFinset, w v) ≤ demand →
        demand < 4294967296 →
        killDemandStep w srcs seen demand
          = demand - ∑ v ∈ killedGpr srcs \ seen.toFinset, w v := by
  intro srcs
  induction srcs with
  | nil =>
    intro _ _ seen demand _ _
    simp [killDemandStep, killedGpr]
  | cons s rest ih =>
    intro hkill hcls seen demand hsum hlt
    have hkill' : ∀ a ∈ rest, ∀ b ∈ rest, a.value = b.value → a.kill = b.kill :=
      fun a ha b hb =>
        hkill a (List.mem_cons_of_mem _ ha) b (List.mem_cons_of_mem _ hb)
    have hcls' : ∀ a ∈ rest, ∀ b ∈ rest, a.value = b.value → a.cls = b.cls :=
      fun a ha b hb =>
        hcls a (List.mem_cons_of_mem _ ha) b (List.mem_cons_of_mem _ hb)
    by_cases hc : s.kill = true ∧ s.cls = RAClass.gpr ∧ s.value ∉ seen
    · obtain ⟨hk, hg, hns⟩ := hc
      have hK : killedGpr (s :: rest) = insert s.value (killedGpr rest) :=
        killedGpr_cons_pos hk hg
      have hnsf : s.value ∉ seen.toFinset := by
        simpa using hns
      have hset1 : killedGpr (s :: rest) \ seen.toFinset
          = insert s.value (killedGpr rest \ seen.toFinset) := by
        rw [hK, Finset.insert_sdiff_of_not_mem _ hnsf]
      have hset2 : killedGpr rest \ (s.value :: seen).toFinset
          = (killedGpr rest \ seen.toFinset).erase s.value := by
        rw [List.toFinset_cons, Finset.sdiff_insert]
      have hins : insert s.value (killedGpr rest \ seen.toFinset)
          = insert s.value ((killedGpr rest \ seen.toFinset).erase s.value) := by
        ext x
        simp only [Finset.mem_insert, Finset.mem_erase]
        constructor
        · rintro (rfl | hx)
          · exact Or.inl rfl
          · by_cases hxv : x = s.value
            · exact Or.inl hxv
            · exact Or.inr ⟨hxv, hx⟩
        · rintro (rfl | ⟨_, hx⟩)
          · exact Or.inl rfl
          · exact Or.inr hx
      have hsumsplit : ∑ v ∈ killedGpr (s :: rest) \ seen.toFinset, w v
          = w s.value + ∑ v ∈ killedGpr rest \ (s.value :: seen).toFinset, w v := by
        rw [hset1, hins, Finset.sum_insert (Finset.not_mem_erase _ _), hset2]
      have hwle : w s.value + (∑ v ∈ killedGpr rest \ (s.value :: seen).toFinset, w v)
          ≤ demand := by
        rw [← hsumsplit]; exact hsum
      have hif : (if s.kill = true ∧ s.cls = RAClass.gpr ∧ s.value ∉ seen then
          usub demand (w s.value) else demand) = demand - w s.value := by
        rw [if_pos ⟨hk, hg, hns⟩, usub_eq_sub (by omega) hlt]
      show killDemandStep w rest (s.value :: seen) _ = _
      rw [hif, ih hkill' hcls' (s.value :: seen) (demand - w s.value)
        (by omega) (by omega), hsumsplit]
      omega
    · have hKsub : killedGpr rest \ (s.value :: seen).toFinset
          = killedGpr (s :: rest) \ seen.toFinset := by
        ext x
        simp only [Finset.mem_sdiff, List.toFinset_cons, Finset.mem_insert,
          List.mem_toFinset]
        constructor
        · rintro ⟨hx, hxne⟩
          push_neg at hxne
          obtain ⟨hxv, hxseen⟩ := hxne
          refine ⟨?_, hxseen⟩
          rcases mem_killedGpr.mp hx with ⟨t, ht, htk, htg, htv⟩
          exact mem_killedGpr.mpr ⟨t, List.mem_cons_of_mem _ ht, htk, htg, htv⟩
        · rintro ⟨hx, hxseen⟩
          rcases mem_killedGpr.mp hx with ⟨t, ht, htk, htg, htv⟩
          rcases List.mem_cons.mp ht with rfl | htrest
          · -- the head itself witnesses x: then the skip condition forces a
            -- contradiction with x ∉ seen
            exact absurd ⟨htk, htg, htv ▸ hxseen⟩ hc
          · have hxv : x ≠ s.value := by
              intro hxv
              have hks : s.kill = true := by
                rw [hkill s (List.mem_cons_self _ _) t ht (by omega)]
                exact htk
              have hgs : s.cls = RAClass.gpr := by
                rw [hcls s (List.mem_cons_self _ _) t ht (by omega)]
                exact htg
              exact hc ⟨hks, hgs, hxv ▸ hxseen⟩
            refine ⟨mem_killedGpr.mpr ⟨t, htrest, htk, htg, htv⟩, ?_⟩
            push_neg
            exact ⟨hxv, hxseen⟩
      have hif : (if s.kill = true ∧ s.cls = RAClass.gpr ∧ s.value ∉ seen then
          usub demand (w s.value) else demand) = demand := if_neg hc
      show killDemandStep w rest (s.value :: seen) _ = _
      rw [hif, ih hkill' hcls' (s.value :: seen) demand
        (by rw [hKsub]; exact hsum) hlt, hKsub]

/-- The total rounded width the destination loop adds: widths of
general-purpose destinations. -/
def dstGprSum (w : ℕ → ℕ) (dsts : List Dst) : ℕ :=
  ((dsts.filter (fun d => d.cls == RAClass.gpr)).map (fun d => w d.value)).sum

/-- Upper bound on all additions the walk can make over a list of
instructions. -/
def destBudget (w : ℕ → ℕ) (instrs : List Instr) : ℕ :=
  (instrs.map (fun I => dstGprSum w I.dsts)).sum

theorem destDemandStep_spec (w : ℕ → ℕ) :
    ∀ (dsts : List Dst),
      (∀ d ∈ dsts, nextPow2 (w d.value) = w d.value) →
      ∀ d0 : ℕ, d0 + dstGprSum w dsts < 4294967296 →
        destDemandStep w dsts (d0, 0) = (d0 + dstGprSum w dsts, 0) := by
  intro dsts
  induction dsts with
  | nil => intro _ d0 _; simp [destDemandStep, dstGprSum]
  | cons d rest ih =>
    intro hpot d0 hlt
    have hpot' : ∀ x ∈ rest, nextPow2 (w x.value) = w x.value :=
      fun x hx => hpot x (List.mem_cons_of_mem _ hx)
    by_cases hg : d.cls = RAClass.gpr
    · have hsum : dstGprSum w (d :: rest) = w d.value + dstGprSum w rest := by
        simp [dstGprSum, List.filter_cons, hg]
      rw [hsum] at hlt ⊢
      have hstep : destDemandStep w (d :: rest) (d0, 0)
          = destDemandStep w rest (d0 + w d.value, 0) := by
        show (if d.cls = RAClass.gpr then _ else _) = _
        rw [if_pos hg]
        have h1 : uadd d0 (nextPow2 (w d.value)) = d0 + w d.value := by
          rw [hpot d (List.mem_cons_self _ _)]
          exact uadd_eq_add (by omega)
        have h2 : uadd 0 (nextPow2 (w d.value) - w d.value) = 0 := by
          rw [hpot d (List.mem_cons_self _ _)]
          simpa using @uadd_eq_add 0 0 (by omega)
        rw [show ((d0, 0) : ℕ × ℕ).1 = d0 from rfl,
          show ((d0, 0) : ℕ × ℕ).2 = 0 from rfl, h1, h2]
      rw [hstep, ih hpot' (d0 + w d.value) (by omega)]
      congr 1
      omega
    · have hsum : dstGprSum w (d :: rest) = dstGprSum w rest := by
        have : (d.cls == RAClass.gpr) = false := by
          simpa using hg
        simp [dstGprSum, List.filter_cons, this]
      have hstep : destDemandStep w (d :: rest) (d0, 0)
          = destDemandStep w rest (d0, 0) := by
        show (if d.cls = RAClass.gpr then _ else _) = _
        rw [if_neg hg]
      rw [hsum] at hlt
      rw [hstep, hsum]
      exact ih hpot' d0 hlt

/-- Filtering distributes over set difference. -/
theorem filter_sdiff_distrib (p : ℕ → Prop) [DecidablePred p]
    (s t : Finset ℕ) : (s \ t).filter p = s.filter p \ t.filter p := by
  ext x
  simp only [Finset.mem_filter, Finset.mem_sdiff]
  tauto

/-- With coherent classes, the killed general-purpose values are exactly
the killed values of general-purpose class. -/
theorem killedSet_filter_gpr (cls : ℕ → RAClass) (I : Instr)
    (hcls : ∀ s ∈ I.srcs, s.cls = cls s.value) :
    (killedSet I).filter (fun v => cls v = RAClass.gpr) = killedGpr I.srcs := by
  ext x
  simp only [Finset.mem_filter, killedSet, List.mem_toFinset, List.mem_map,
    List.mem_filter, mem_killedGpr]
  constructor
  · rintro ⟨⟨s, ⟨hs, hk⟩, hv⟩, hg⟩
    exact ⟨s, hs, hk, by rw [hcls s hs, hv]; exact hg, hv⟩
  · rintro ⟨s, hs, hk, hg, hv⟩
    exact ⟨⟨s, ⟨hs, hk⟩, hv⟩, by rw [← hv, ← hcls s hs]; exact hg⟩

/-- With distinct destination values and coherent classes, the `Finset`
sum over the general-purpose destinations equals the list sum the
destination loop computes. -/
theorem destSet_filter_sum (w : ℕ → ℕ) (cls : ℕ → RAClass) :
    ∀ (dsts : List Dst), (dsts.map (fun d => d.value)).Nodup →
      (∀ d ∈ dsts, d.cls = cls d.value) →
      ∑ v ∈ ((dsts.map (fun d => d.value)).toFinset).filter
          (fun v => cls v = RAClass.gpr), w v = dstGprSum w dsts := by
  intro dsts
  induction dsts with
  | nil => intro _ _; simp [dstGprSum]
  | cons d rest ih =>
    intro hnd hcls
    have hnd' : (rest.map (fun d => d.value)).Nodup := (List.nodup_cons.mp hnd).2
    have hdv : d.value ∉ rest.map (fun d => d.value) := (List.nodup_cons.mp hnd).1
    have hcls' : ∀ x ∈ rest, x.cls = cls x.value :=
      fun x hx => hcls x (List.mem_cons_of_mem _ hx)
    by_cases hg : cls d.value = RAClass.gpr
    · have hdg : (d.cls == RAClass.gpr) = true := by
        simp [hcls d (List.mem_cons_self _ _), hg]
      have hfil : ((d.value :: rest.map (fun d => d.value)).toFinset).filter
          (fun v => cls v = RAClass.gpr)
          = insert d.value (((rest.map (fun d => d.value)).toFinset).filter
              (fun v => cls v = RAClass.gpr)) := by
        rw [List.toFinset_cons, Finset.filter_insert, if_pos hg]
      have hnotmem : d.value ∉ ((rest.map (fun x => x.value)).toFinset).filter
          (fun v => cls v = RAClass.gpr) := by
        simp only [Finset.mem_filter, List.mem_toFinset]
        intro hmem
        exact hdv hmem.1
      have hsum : dstGprSum w (d :: rest) = w d.value + dstGprSum w rest := by
        simp [dstGprSum, List.filter_cons, hdg]
      simp only [List.map_cons] at *
      rw [hfil, Finset.sum_insert hnotmem, ih hnd' hcls', hsum]
    · have hdg : (d.cls == RAClass.gpr) = false := by
        have : ¬d.cls = RAClass.gpr := by
          rw [hcls d (List.mem_cons_self _ _)]; exact hg
        simpa using this
      have hfil : ((d.value :: rest.map (fun d => d.value)).toFinset).filter
          (fun v => cls v = RAClass.gpr)
          = ((rest.map (fun d => d.value)).toFinset).filter
              (fun v => cls v = RAClass.gpr) := by
        rw [List.toFinset_cons, Finset.filter_insert, if_neg hg]
      have hsum : dstGprSum w (d :: rest) = dstGprSum w rest := by
        simp [dstGprSum, List.filter_cons, hdg]
      simp only [List.map_cons] at *
      rw [hfil, ih hnd' hcls', hsum]

/-- One `liveStep` changes the general-purpose width sum by subtracting the
killed widths and adding the destination widths. -/
theorem gprSum_liveStep (w : ℕ → ℕ) (cls : ℕ → RAClass) (L K D : Finset ℕ)
    (hK : K ⊆ L) (hD : ∀ x ∈ D, x ∉ L) :
    gprSum w cls ((L \ K) ∪ D)
        + ∑ v ∈ K.filter (fun v => cls v = RAClass.gpr), w v
      = gprSum w cls L + ∑ v ∈ D.filter (fun v => cls v = RAClass.gpr), w v := by
  unfold gprSum
  rw [Finset.filter_union, filter_sdiff_distrib]
  have hKf : K.filter (fun v => cls v = RAClass.gpr)
      ⊆ L.filter (fun v => cls v = RAClass.gpr) :=
    Finset.filter_subset_filter _ hK
  have hdisj : Disjoint
      (L.filter (fun v => cls v = RAClass.gpr) \
        K.filter (fun v => cls v = RAClass.gpr))
      (D.filter (fun v => cls v = RAClass.gpr)) := by
    rw [Finset.disjoint_left]
    intro x hx hxD
    have hxL : x ∈ L := (Finset.mem_filter.mp (Finset.mem_sdiff.mp hx).1).1
    have hxD' : x ∈ D := (Finset.mem_filter.mp hxD).1
    exact hD x hxD' hxL
  rw [Finset.sum_union hdisj]
  have hsd : (∑ v ∈ L.filter (fun v => cls v = RAClass.gpr) \
        K.filter (fun v => cls v = RAClass.gpr), w v)
      + ∑ v ∈ K.filter (fun v => cls v = RAClass.gpr), w v
      = ∑ v ∈ L.filter (fun v => cls v = RAClass.gpr), w v :=
    Finset.sum_sdiff hKf
  omega

theorem gprSum_le_maxLiveSum (w : ℕ → ℕ) (cls : ℕ → RAClass) (L : Finset ℕ) :
    ∀ instrs, gprSum w cls L ≤ maxLiveSum w cls L instrs
  | [] => le_refl _
  | _ :: _ => le_max_left _ _

/-- The demand walk, started in a state whose demand equals the
control-flow constant plus the live width-sum (late-kill clear), computes
as its rolling maximum exactly the maximum live width-sum over all
remaining program points. -/
theorem demandWalk_spec (w : ℕ → ℕ) (cls : ℕ → RAClass) (cfN : ℕ) :
    ∀ (instrs : List Instr) (L : Finset ℕ) (st : DemandSt),
      WFInstrs w cls L instrs →
      st.demand = cfN + gprSum w cls L →
      st.lateKill = 0 →
      st.demand ≤ st.maxDemand →
      cfN + gprSum w cls L + destBudget w instrs < 4294967296 →
      (instrs.foldl (demandInstrStep w) st).maxDemand
        = max st.maxDemand (cfN + maxLiveSum w cls L instrs) := by
  intro instrs
  induction instrs with
  | nil =>
    intro L st _ hd _ hmax _
    show st.maxDemand = max st.maxDemand (cfN + gprSum w cls L)
    omega
  | cons I rest ih =>
    intro L st hwf hd hlk hmax hbound
    obtain ⟨hI, hrest⟩ := hwf
    have hbud : destBudget w (I :: rest)
        = dstGprSum w I.dsts + destBudget w rest := by
      simp [destBudget]
    rw [List.foldl_cons]
    by_cases hphi : I.isPhi = true
    · have hls : liveStep L I = L := by simp [liveStep, hphi]
      have hstep : demandInstrStep w st I = st := by
        simp [demandInstrStep, hphi]
      rw [hstep, ih L st (hls ▸ hrest) hd hlk hmax (by omega)]
      have hml : maxLiveSum w cls L (I :: rest)
          = max (gprSum w cls L) (maxLiveSum w cls L rest) := by
        show max (gprSum w cls L) (maxLiveSum w cls (liveStep L I) rest) = _
        rw [hls]
      rw [hml]
      have h2 := gprSum_le_maxLiveSum w cls L rest
      omega
    · obtain ⟨hK, hfresh, hnd, hkco, hscls, hdcls, hpot⟩ := hI hphi
      have hclsco : ∀ a ∈ I.srcs, ∀ b ∈ I.srcs, a.value = b.value →
          a.cls = b.cls := by
        intro a ha b hb hv
        rw [hscls a ha, hscls b hb, hv]
      have hKf : (killedSet I).filter (fun v => cls v = RAClass.gpr)
          ⊆ L.filter (fun v => cls v = RAClass.gpr) :=
        Finset.filter_subset_filter _ hK
      have hSKle : ∑ v ∈ (killedSet I).filter (fun v => cls v = RAClass.gpr), w v
          ≤ gprSum w cls L :=
        Finset.sum_le_sum_of_subset hKf
      have hdlt : st.demand < 4294967296 := by omega
      have h1 : usub st.demand st.lateKill = st.demand := by
        rw [hlk, usub_eq_sub (by omega) hdlt]
        omega
      have hkillset : killedGpr I.srcs
          = (killedSet I).filter (fun v => cls v = RAClass.gpr) :=
        (killedSet_filter_gpr cls I hscls).symm
      have h2 : killDemandStep w I.srcs [] st.demand
          = st.demand
            - ∑ v ∈ (killedSet I).filter (fun v => cls v = RAClass.gpr), w v := by
        have := killDemandStep_spec w I.srcs hkco hclsco [] st.demand
          (by simpa [hkillset] using by omega) hdlt
        simpa [hkillset] using this
      have h3 : destDemandStep w I.dsts
          (st.demand
            - ∑ v ∈ (killedSet I).filter (fun v => cls v = RAClass.gpr), w v, 0)
          = (st.demand
              - (∑ v ∈ (killedSet I).filter (fun v => cls v = RAClass.gpr), w v)
              + dstGprSum w I.dsts, 0) :=
        destDemandStep_spec w I.dsts hpot _ (by omega)
      have hID : instrDemand w st I
          = (st.demand
              - (∑ v ∈ (killedSet I).filter (fun v => cls v = RAClass.gpr), w v)
              + dstGprSum w I.dsts, 0) := by
        unfold instrDemand
        rw [h1, h2, h3]
      have hDfresh : ∀ x ∈ destSet I, x ∉ L := by
        intro x hx
        simp only [destSet, List.mem_toFinset, List.mem_map] at hx
        obtain ⟨d, hdm, rfl⟩ := hx
        exact hfresh d hdm
      have hstepSum := gprSum_liveStep w cls L (killedSet I) (destSet I) hK hDfresh
      have hDsum : ∑ v ∈ (destSet I).filter (fun v => cls v = RAClass.gpr), w v
          = dstGprSum w I.dsts :=
        destSet_filter_sum w cls I.dsts hnd hdcls
      have hls : liveStep L I = (L \ killedSet I) ∪ destSet I := by
        simp [liveStep, hphi]
      have hd3 : st.demand
          - (∑ v ∈ (killedSet I).filter (fun v => cls v = RAClass.gpr), w v)
          + dstGprSum w I.dsts = cfN + gprSum w cls (liveStep L I) := by
        rw [hls]
        omega
      have hstep : demandInstrStep w st I
          = { demand := cfN + gprSum w cls (liveStep L I),
              lateKill := 0,
              maxDemand :=
                max st.maxDemand (cfN + gprSum w cls (liveStep L I)) } := by
        simp [demandInstrStep, hphi, hID, hd3]
      rw [hstep]
      have hbound' : cfN + gprSum w cls (liveStep L I) + destBudget w rest
          < 4294967296 := by
        rw [hls] at *
        omega
      rw [ih (liveStep L I) _ hrest rfl rfl (by simp) hbound']
      show max (max st.maxDemand (cfN + gprSum w cls (liveStep L I)))
            (cfN + maxLiveSum w cls (liveStep L I) rest)
          = max st.maxDemand (cfN +
            max (gprSum w cls L) (maxLiveSum w cls (liveStep L I) rest))
      have hfirst := gprSum_le_maxLiveSum w cls (liveStep L I) rest
      omega

/-- The per-block walk computes `max` of the incoming rolling maximum and
the block's true maximum live width-sum (plus the nesting-counter
reservation). -/
theorem blockDemand_spec (w : ℕ → ℕ) (cls : ℕ → RAClass) (cf : Bool)
    (maxd : ℕ) (b : Block)
    (hwf : WFInstrs w cls b.live_in b.instrs)
    (hbound : (if cf then 1 else 0) + gprSum w cls b.live_in
      + destBudget w b.instrs < 4294967296) :
    blockDemand w cls cf maxd b
      = max maxd
          ((if cf then 1 else 0) + maxLiveSum w cls b.live_in b.instrs) := by
  unfold blockDemand
  have hd0 : u32 ((if cf then 1 else 0) + gprSum w cls b.live_in)
      = (if cf then 1 else 0) + gprSum w cls b.live_in := by
    unfold u32
    exact Nat.mod_eq_of_lt (by omega)
  rw [hd0]
  rw [demandWalk_spec w cls (if cf then 1 else 0) b.instrs b.live_in _ hwf rfl rfl
    (le_max_right _ _) hbound]
  show max (max maxd ((if cf then 1 else 0) + gprSum w cls b.live_in))
      ((if cf then 1 else 0) + maxLiveSum w cls b.live_in b.instrs) = _
  have h2 := gprSum_le_maxLiveSum w cls b.live_in b.instrs
  omega

theorem foldl_max_init (l : List ℕ) : ∀ a : ℕ, l.foldl max a = max a (l.foldl max 0) := by
  induction l with
  | nil => intro a; simp
  | cons x t ih =>
    intro a
    rw [List.foldl_cons, List.foldl_cons, ih (max a x), ih (max 0 x)]
    omega

/-- Liveness/SSA well-formedness of a program with respect to the gathered
width and class tables (as `agx_ra` requires of its input), plus the
no-`unsigned`-overflow bound on the total widths of each block. -/
def WFProgram (p : Program) : Prop :=
  p.blocks ≠ [] ∧
  ∀ b ∈ p.blocks,
    WFInstrs (gatherWidth p) (gatherClass p) b.live_in b.instrs ∧
    (if p.any_cf then 1 else 0)
      + gprSum (gatherWidth p) (gatherClass p) b.live_in
      + destBudget (gatherWidth p) b.instrs < 4294967296

instance (p : Program) : Decidable (WFProgram p) := by
  unfold WFProgram; infer_instance

/-- The true program-wide maximum, over all program points, of the total
rounded width of simultaneously live general-purpose values. -/
def progMaxLive (p : Program) : ℕ :=
  (p.blocks.map (fun b =>
    maxLiveSum (gatherWidth p) (gatherClass p) b.live_in b.instrs)).foldl max 0

/-- C2 — for every well-formed program with liveness computed,
`agx_calc_register_demand` returns exactly the maximum, over all program
points, of the sum of the power-of-two-rounded widths of all
simultaneously live general-purpose values, plus one reserved unit (the
nesting counter) when the program uses any control flow. -/
theorem calc_register_demand_exact (p : Program) (hwf : WFProgram p) :
    calcRegisterDemand p
      = (if p.any_cf then 1 else 0) + progMaxLive p := by
  obtain ⟨hne, hblocks⟩ := hwf
  unfold calcRegisterDemand progMaxLive
  set w := gatherWidth p
  set cls := gatherClass p
  set cfN := (if p.any_cf then (1 : ℕ) else 0) with hcfN
  have key : ∀ (bl : List Block), bl ≠ [] →
      (∀ b ∈ bl, WFInstrs w cls b.live_in b.instrs ∧
        cfN + gprSum w cls b.live_in + destBudget w b.instrs < 4294967296) →
      ∀ a : ℕ,
        bl.foldl (blockDemand w cls p.any_cf) a
          = max a (cfN + (bl.map (fun b =>
              maxLiveSum w cls b.live_in b.instrs)).foldl max 0) := by
    intro bl
    induction bl with
    | nil => intro h; exact absurd rfl h
    | cons b rest ih =>
      intro _ hall a
      obtain ⟨hwfb, hbb⟩ := hall b (List.mem_cons_self _ _)
      have hbd := blockDemand_spec w cls p.any_cf a b hwfb (by rw [← hcfN]; omega)
      rw [List.foldl_cons, hbd]
      rcases List.eq_nil_or_concat rest with rfl | _
      · simp [foldl_max_init]
      · have hrestne : rest ≠ [] := by
          rename_i hcat
          obtain ⟨t, x, rfl⟩ := hcat
          simp
        have hall' : ∀ x ∈ rest, WFInstrs w cls x.live_in x.instrs ∧
            cfN + gprSum w cls x.live_in + destBudget w x.instrs < 4294967296 :=
          fun x hx => hall x (List.mem_cons_of_mem _ hx)
        rw [ih hrestne hall'
          (max a (cfN + maxLiveSum w cls b.live_in b.instrs))]
        rw [List.map_cons, List.foldl_cons, foldl_max_init _ (max 0 _)]
        omega
  rw [key p.blocks hne hblocks 0]
  omega

/-- Witness for C2: a straight-line block defining `v0` (width 1), then an
add-like instruction killing `v0` and defining `v1` (width 2). The peak
live width-sum is 2 and the estimator returns 2. -/
theorem calc_register_demand_exact_witness :
    WFProgram
      { blocks :=
          [{ live_in := ∅,
             instrs :=
              [{ isPhi := false, srcs := [],
                 dsts := [{ value := 0, size16 := 1, cls := RAClass.gpr }] },
               { isPhi := false,
                 srcs := [{ value := 0, kill := true, cls := RAClass.gpr }],
                 dsts := [{ value := 1, size16 := 2, cls := RAClass.gpr }] }] }],
        any_cf := false } ∧
    calcRegisterDemand
      { blocks :=
          [{ live_in := ∅,
             instrs :=
              [{ isPhi := false, srcs := [],
                 dsts := [{ value := 0, size16 := 1, cls := RAClass.gpr }] },
               { isPhi := false,
                 srcs := [{ value := 0, kill := true, cls := RAClass.gpr }],
                 dsts := [{ value := 1, size16 := 2, cls := RAClass.gpr }] }] }],
        any_cf := false }
      = (if (false : Bool) then 1 else 0) + progMaxLive
      { blocks :=
          [{ live_in := ∅,
             instrs :=
              [{ isPhi := false, srcs := [],
                 dsts := [{ value := 0, size16 := 1, cls := RAClass.gpr }] },
               { isPhi := false,
                 srcs := [{ value := 0, kill := true, cls := RAClass.gpr }],
                 dsts := [{ value := 1, size16 := 2, cls := RAClass.gpr }] }] }],
        any_cf := false } :=
  ⟨by decide, calc_register_demand_exact _ (by decide)⟩

/-! ## C5/C6: `find_best_region_to_evict`

The search walks every `size`-aligned window of the general-purpose file,
skips `r0l`-containing and already-evicted windows, scores the rest, and
keeps the first window of minimal score that still has a free register. -/

/-- The parts of `struct ra_ctx` that the eviction search reads: the
occupancy bitset `used_regs[RA_GPR]`, the class bound `bound[RA_GPR]`, and
the shader's `any_cf` flag. -/
structure EvictCtx where
  used : Finset ℕ
  bound : ℕ
  anyCf : Bool
deriving DecidableEq

/-- The move-count estimate for the window `[base, base + size)`: one move
per occupied sub-unit, plus two per sub-unit holding a killed source. -/
def regionMoves (used killed : Finset ℕ) (base size : ℕ) : ℕ :=
  ∑ reg ∈ Finset.Ico base (base + size),
    ((if reg ∈ used then 1 else 0) + (if reg ∈ killed then 2 else 0))

/-- The candidate bases: `base` stepping by `size` from `0` while
`base + size <= bound` (the bound is asserted to be a multiple of the
power-of-two `size`). -/
def evictCandidates (bound size : ℕ) : List ℕ :=
  (List.range (bound / size)).map (fun k => k * size)

/-- One iteration of the search loop, updating `(best_base, best_moves)`:
skip the window containing the unevictable `r0l` when control flow is
used; skip windows meeting the already-evicted set; otherwise take the
window if it has a free register and strictly fewer estimated moves than
the best so far. -/
def evictStep (e : EvictCtx) (size : ℕ) (aE killed : Finset ℕ)
    (best : ℕ × ℕ) (base : ℕ) : ℕ × ℕ :=
  if base = 0 ∧ e.anyCf = true then best
  else if (Finset.Ico base (base + size) ∩ aE).Nonempty then best
  else if (∃ reg ∈ Finset.Ico base (base + size), reg ∉ e.used) ∧
      regionMoves e.used killed base size < best.2 then
    (base, regionMoves e.used killed base size)
  else best

/-- The search `find_best_region_to_evict`: fold the search over all candidates,
starting from `best_base = best_moves = ~0u`, and return the best base. -/
def find_best_region_to_evict (e : EvictCtx) (size : ℕ)
    (aE killed : Finset ℕ) : ℕ :=
  ((evictCandidates e.bound size).foldl (evictStep e size aE killed)
    (4294967295, 4294967295)).1

/-- A candidate the loop would accept: not the reserved `r0l` window, not
already evicted, and containing at least one free register. -/
def okCand (e : EvictCtx) (size : ℕ) (aE : Finset ℕ) (base : ℕ) : Prop :=
  ¬(base = 0 ∧ e.anyCf = true) ∧
  ¬(Finset.Ico base (base + size) ∩ aE).Nonempty ∧
  (∃ reg ∈ Finset.Ico base (base + size), reg ∉ e.used)

instance (e : EvictCtx) (size : ℕ) (aE : Finset ℕ) (base : ℕ) :
    Decidable (okCand e size aE base) := by
  unfold okCand; infer_instance

/-- A valid candidate: an enumerated base the loop would accept. -/
def validCandidate (e : EvictCtx) (size : ℕ) (aE : Finset ℕ)
    (base : ℕ) : Prop :=
  base ∈ evictCandidates e.bound size ∧ okCand e size aE base

instance (e : EvictCtx) (size : ℕ) (aE : Finset ℕ) (base : ℕ) :
    Decidable (validCandidate e size aE base) := by
  unfold validCandidate; infer_instance

theorem evictStep_not_ok {e : EvictCtx} {size : ℕ} {aE killed : Finset ℕ}
    {best : ℕ × ℕ} {base : ℕ} (h : ¬okCand e size aE base) :
    evictStep e size aE killed best base = best := by
  unfold evictStep
  by_cases h1 : base = 0 ∧ e.anyCf = true
  · rw [if_pos h1]
  · rw [if_neg h1]
    by_cases h2 : (Finset.Ico base (base + size) ∩ aE).Nonempty
    · rw [if_pos h2]
    · rw [if_neg h2]
      have h3 : ¬(∃ reg ∈ Finset.Ico base (base + size), reg ∉ e.used) := by
        intro h3
        exact h ⟨h1, h2, h3⟩
      rw [if_neg (fun hc => h3 hc.1)]

theorem evictStep_ok_lt {e : EvictCtx} {size : ℕ} {aE killed : Finset ℕ}
    {best : ℕ × ℕ} {base : ℕ} (h : okCand e size aE base)
    (hlt : regionMoves e.used killed base size < best.2) :
    evictStep e size aE killed best base
      = (base, regionMoves e.used killed base size) := by
  obtain ⟨h1, h2, h3⟩ := h
  unfold evictStep
  rw [if_neg h1, if_neg h2, if_pos ⟨h3, hlt⟩]

theorem evictStep_ok_ge {e : EvictCtx} {size : ℕ} {aE killed : Finset ℕ}
    {best : ℕ × ℕ} {base : ℕ} (h : okCand e size aE base)
    (hge : ¬regionMoves e.used killed base size < best.2) :
    evictStep e size aE killed best base = best := by
  obtain ⟨h1, h2, h3⟩ := h
  unfold evictStep
  rw [if_neg h1, if_neg h2, if_neg (fun hc => hge hc.2)]

/-- Fold invariant of the search loop: the result either is the unchanged
incoming best (and every acceptable candidate scores at least the incoming
best score), or it is an acceptable enumerated candidate of minimal score,
scoring strictly better than the incoming best. -/
theorem evictFold_spec (e : EvictCtx) (size : ℕ) (aE killed : Finset ℕ) :
    ∀ (cands : List ℕ) (best : ℕ × ℕ),
      (cands.foldl (evictStep e size aE killed) best = best ∧
        ∀ c ∈ cands, okCand e size aE c →
          best.2 ≤ regionMoves e.used killed c size) ∨
      (okCand e size aE (cands.foldl (evictStep e size aE killed) best).1 ∧
        (cands.foldl (evictStep e size aE killed) best).1 ∈ cands ∧
        (cands.foldl (evictStep e size aE killed) best).2
          = regionMoves e.used killed
              (cands.foldl (evictStep e size aE killed) best).1 size ∧
        (cands.foldl (evictStep e size aE killed) best).2 < best.2 ∧
        ∀ c ∈ cands, okCand e size aE c →
          (cands.foldl (evictStep e size aE killed) best).2
            ≤ regionMoves e.used killed c size) := by
  intro cands
  induction cands with
  | nil => intro best; exact Or.inl ⟨rfl, by simp⟩
  | cons c rest ih =>
    intro best
    rw [List.foldl_cons]
    by_cases hok : okCand e size aE c
    · by_cases hlt : regionMoves e.used killed c size < best.2
      · rw [evictStep_ok_lt hok hlt]
        rcases ih (c, regionMoves e.used killed c size) with ⟨hr, hmin⟩ | hR
        · right
          rw [hr]
          refine ⟨hok, List.mem_cons_self _ _, rfl, hlt, ?_⟩
          intro x hx hxok
          rcases List.mem_cons.mp hx with rfl | hxr
          · exact le_refl _
          · exact hmin x hxr hxok
        · obtain ⟨hok', hmem, hr2, hlt', hmin⟩ := hR
          right
          refine ⟨hok', List.mem_cons_of_mem _ hmem, hr2, by
            simp only [] at hlt'; omega, ?_⟩
          intro x hx hxok
          rcases List.mem_cons.mp hx with rfl | hxr
          · simp only [] at hlt'; omega
          · exact hmin x hxr hxok
      · rw [evictStep_ok_ge hok hlt]
        rcases ih best with ⟨hr, hmin⟩ | hR
        · left
          refine ⟨hr, ?_⟩
          intro x hx hxok
          rcases List.mem_cons.mp hx with rfl | hxr
          · omega
          · exact hmin x hxr hxok
        · obtain ⟨hok', hmem, hr2, hlt', hmin⟩ := hR
          right
          refine ⟨hok', List.mem_cons_of_mem _ hmem, hr2, hlt', ?_⟩
          intro x hx hxok
          rcases List.mem_cons.mp hx with rfl | hxr
          · omega
          · exact hmin x hxr hxok
    · rw [evictStep_not_ok hok]
      rcases ih best with ⟨hr, hmin⟩ | hR
      · left
        refine ⟨hr, ?_⟩
        intro x hx hxok
        rcases List.mem_cons.mp hx with rfl | hxr
        · exact absurd hxok hok
        · exact hmin x hxr hxok
      · obtain ⟨hok', hmem, hr2, hlt', hmin⟩ := hR
        right
        refine ⟨hok', List.mem_cons_of_mem _ hmem, hr2, hlt', ?_⟩
        intro x hx hxok
        rcases List.mem_cons.mp hx with rfl | hxr
        · exact absurd hxok hok
        · exact hmin x hxr hxok

theorem regionMoves_le (used killed : Finset ℕ) (base size : ℕ) :
    regionMoves used killed base size ≤ 3 * size := by
  unfold regionMoves
  calc ∑ reg ∈ Finset.Ico base (base + size),
        ((if reg ∈ used then 1 else 0) + (if reg ∈ killed then 2 else 0))
      ≤ ∑ _reg ∈ Finset.Ico base (base + size), 3 := by
        refine Finset.sum_le_sum ?_
        intro i _
        split <;> split <;> omega
    _ = 3 * size := by
        rw [Finset.sum_const, Nat.card_Ico, smul_eq_mul]
        omega

theorem mem_evictCandidates {bound size base : ℕ} (hdvd : size ∣ bound)
    (hpos : 0 < size) (h : base ∈ evictCandidates bound size) :
    base + size ≤ bound := by
  obtain ⟨k, hk, rfl⟩ := by
    simpa [evictCandidates, List.mem_map, List.mem_range] using h
  obtain ⟨m, rfl⟩ := hdvd
  have hklt : k < m := by
    rw [Nat.mul_div_cancel_left _ hpos] at hk
    exact hk
  calc k * size + size = (k + 1) * size := by ring
    _ ≤ m * size := Nat.mul_le_mul_right _ (by omega)
    _ = size * m := by ring

theorem mk_evictCandidate {bound size r : ℕ} (hdvd : size ∣ bound)
    (hpos : 0 < size) (hr : r < bound) :
    r / size * size ∈ evictCandidates bound size := by
  simp only [evictCandidates, List.mem_map, List.mem_range]
  refine ⟨r / size, ?_, rfl⟩
  obtain ⟨m, rfl⟩ := hdvd
  rw [Nat.mul_div_cancel_left _ hpos]
  exact Nat.div_lt_of_lt_mul (by omega)

/-- Existence of an acceptable window under the documented precondition:
at least `size` free registers in the file (the demand bound was already
checked), `r0l` occupied whenever control flow is used (the allocator
pins it), and nothing evicted yet (the top-level call passes an empty
`clobbered` set). Follows the counting argument in the C comment. -/
theorem evict_candidate_exists (e : EvictCtx) (size : ℕ)
    (hpos : 0 < size) (hdvd : size ∣ e.bound)
    (hfree : size ≤ ((Finset.Ico 0 e.bound).filter
      (fun r => r ∉ e.used)).card)
    (hcf : e.anyCf = true → 0 ∈ e.used) :
    ∃ c, validCandidate e size ∅ c := by
  classical
  set F := (Finset.Ico 0 e.bound).filter (fun r => r ∉ e.used) with hF
  have hex : ∃ r ∈ F, e.anyCf = true → size ≤ r := by
    by_cases hacf : e.anyCf = true
    · -- every free register below `size` avoids 0, so they number < size;
      -- some free register lies at `size` or above
      by_contra hcon
      push_neg at hcon
      have hsub : F ⊆ Finset.Ico 1 size := by
        intro r hr
        have h0 : r ∈ Finset.Ico 0 e.bound ∧ r ∉ e.used :=
          Finset.mem_filter.mp hr
        have hrlt : r < size := (hcon r hr).2
        have hr0 : r ≠ 0 := by
          intro h
          exact h0.2 (h ▸ hcf hacf)
        exact Finset.mem_Ico.mpr ⟨by omega, hrlt⟩
      have := Finset.card_le_card hsub
      rw [Nat.card_Ico] at this
      omega
    · have hne : F.Nonempty := Finset.card_pos.mp (by omega)
      obtain ⟨r, hr⟩ := hne
      exact ⟨r, hr, fun h => absurd h hacf⟩
  obtain ⟨r, hrF, hge⟩ := hex
  have hrm := Finset.mem_filter.mp hrF
  have hrb : r < e.bound := (Finset.mem_Ico.mp hrm.1).2
  have hrfree : r ∉ e.used := hrm.2
  refine ⟨r / size * size, mk_evictCandidate hdvd hpos hrb, ?_, ?_, ?_⟩
  · rintro ⟨hz, hacf⟩
    have hrge : size ≤ r := hge hacf
    have h1le : 1 ≤ r / size := (Nat.one_le_div_iff hpos).mpr hrge
    have hcomm : r / size * size = size * (r / size) := Nat.mul_comm _ _
    have hmul : size * 1 ≤ size * (r / size) := Nat.mul_le_mul_left _ h1le
    omega
  · simp
  · refine ⟨r, ?_, hrfree⟩
    have hdm := Nat.div_add_mod r size
    have hml := Nat.mod_lt r hpos
    have hcomm : r / size * size = size * (r / size) := Nat.mul_comm _ _
    refine Finset.mem_Ico.mpr ⟨?_, ?_⟩ <;> omega

/-- Core specification of `find_best_region_to_evict` on the top-level
call: under the precondition, the returned base is a valid enumerated
candidate of minimal score. -/
theorem find_best_region_valid_min (e : EvictCtx) (size : ℕ)
    (killed : Finset ℕ)
    (hpos : 0 < size) (hdvd : size ∣ e.bound)
    (hfree : size ≤ ((Finset.Ico 0 e.bound).filter
      (fun r => r ∉ e.used)).card)
    (hcf : e.anyCf = true → 0 ∈ e.used)
    (hsz : 3 * size < 4294967295) :
    validCandidate e size ∅ (find_best_region_to_evict e size ∅ killed) ∧
    ∀ c, validCandidate e size ∅ c →
      regionMoves e.used killed (find_best_region_to_evict e size ∅ killed)
          size
        ≤ regionMoves e.used killed c size := by
  obtain ⟨c0, hc0⟩ := evict_candidate_exists e size hpos hdvd hfree hcf
  rcases evictFold_spec e size ∅ killed (evictCandidates e.bound size)
      (4294967295, 4294967295) with ⟨_, hmin⟩ | hR
  · exfalso
    have h1 := hmin c0 hc0.1 hc0.2
    have h2 := regionMoves_le e.used killed c0 size
    simp only [] at h1
    omega
  · obtain ⟨hok, hmem, hr2, _, hmin⟩ := hR
    constructor
    · exact ⟨hmem, hok⟩
    · intro c hc
      have := hmin c hc.1 hc.2
      unfold find_best_region_to_evict
      omega

/-- C5 — given a required power-of-two width, the search (which enumerates
aligned bases at stride `size`, skips base 0 under control flow, skips
already-evicted windows, scores +1 per occupied and +2 per killed sub-unit
and rejects windows with no free sub-unit) returns a window that contains
at least one free register, lies within the register file, avoids the
reserved `r0l` window, and has minimal score among all acceptable
candidates; such a candidate exists whenever at least `size` registers are
free in total. -/
theorem find_best_region_to_evict_spec (e : EvictCtx) (size : ℕ)
    (killed : Finset ℕ)
    (hpos : 0 < size) (hdvd : size ∣ e.bound)
    (hfree : size ≤ ((Finset.Ico 0 e.bound).filter
      (fun r => r ∉ e.used)).card)
    (hcf : e.anyCf = true → 0 ∈ e.used)
    (hsz : 3 * size < 4294967295) :
    (∃ reg ∈ Finset.Ico (find_best_region_to_evict e size ∅ killed)
        (find_best_region_to_evict e size ∅ killed + size), reg ∉ e.used) ∧
    find_best_region_to_evict e size ∅ killed + size ≤ e.bound ∧
    (e.anyCf = true → find_best_region_to_evict e size ∅ killed ≠ 0) ∧
    ∀ c, validCandidate e size ∅ c →
      regionMoves e.used killed (find_best_region_to_evict e size ∅ killed)
          size
        ≤ regionMoves e.used killed c size := by
  obtain ⟨⟨hmem, hok⟩, hmin⟩ :=
    find_best_region_valid_min e size killed hpos hdvd hfree hcf hsz
  exact ⟨hok.2.2, mem_evictCandidates hdvd hpos hmem,
    fun hacf h0 => hok.1 ⟨h0, hacf⟩, hmin⟩

/-- Witness for C5: an 8-register file with `r0`–`r2`, `r4`, `r5` occupied,
`r4`/`r5` killed, control flow in use, window width 2. -/
theorem find_best_region_to_evict_spec_witness :
    (∃ reg ∈ Finset.Ico
        (find_best_region_to_evict ⟨{0, 1, 2, 4, 5}, 8, true⟩ 2 ∅ {4, 5})
        (find_best_region_to_evict ⟨{0, 1, 2, 4, 5}, 8, true⟩ 2 ∅ {4, 5} + 2),
        reg ∉ EvictCtx.used ⟨{0, 1, 2, 4, 5}, 8, true⟩) ∧
    find_best_region_to_evict ⟨{0, 1, 2, 4, 5}, 8, true⟩ 2 ∅ {4, 5} + 2 ≤ 8 ∧
    (true = true →
      find_best_region_to_evict ⟨{0, 1, 2, 4, 5}, 8, true⟩ 2 ∅ {4, 5} ≠ 0) ∧
    ∀ c, validCandidate ⟨{0, 1, 2, 4, 5}, 8, true⟩ 2 ∅ c →
      regionMoves {0, 1, 2, 4, 5} {4, 5}
          (find_best_region_to_evict ⟨{0, 1, 2, 4, 5}, 8, true⟩ 2 ∅ {4, 5}) 2
        ≤ regionMoves {0, 1, 2, 4, 5} {4, 5} c 2 :=
  find_best_region_to_evict_spec ⟨{0, 1, 2, 4, 5}, 8, true⟩ 2 {4, 5}
    (by decide) (by decide) (by decide) (by decide) (by decide)

/-- C6 — strict decrease of the recursive eviction in
`assign_regs_by_copying`: any variable whose contiguous occupied range
`[reg, reg + nr)` lies inside the chosen window is strictly narrower than
the window (`nr < count`), because the chosen window always keeps at least
one free sub-unit; since variable widths are powers of two, the recursive
invocation's rounded window `nextPow2 nr` is also strictly smaller, so the
recursion is over a well-founded strictly decreasing measure. -/
theorem assign_regs_by_copying_strict_decrease (e : EvictCtx) (size : ℕ)
    (killed : Finset ℕ)
    (hpos : 0 < size) (hdvd : size ∣ e.bound)
    (hfree : size ≤ ((Finset.Ico 0 e.bound).filter
      (fun r => r ∉ e.used)).card)
    (hcf : e.anyCf = true → 0 ∈ e.used)
    (hsz : 3 * size < 4294967295) :
    ∀ reg nr,
      find_best_region_to_evict e size ∅ killed ≤ reg →
      reg + nr ≤ find_best_region_to_evict e size ∅ killed + size →
      0 < nr →
      (∀ j, j < nr → reg + j ∈ e.used) →
      nr < size ∧ (∀ k, nr = 2 ^ k → nextPow2 nr < size) := by
  obtain ⟨⟨hmem, hok⟩, _⟩ :=
    find_best_region_valid_min e size killed hpos hdvd hfree hcf hsz
  obtain ⟨f, hfIco, hffree⟩ := hok.2.2
  intro reg nr hbr hrn hnr hocc
  have hflt := Finset.mem_Ico.mp hfIco
  have hnrlt : nr < size := by
    by_contra hge
    push_neg at hge
    have hfo := hocc (f - reg) (by omega)
    rw [show reg + (f - reg) = f by omega] at hfo
    exact hffree hfo
  refine ⟨hnrlt, ?_⟩
  intro k hk
  rw [hk, nextPow2_pow]
  omega

/-- Witness for C6: an 8-register file with `r0`–`r2`, `r4`–`r6` occupied,
width-2 window; the chosen window is `[2, 4)` and the single-width
variable at `r2` is strictly narrower than the window. -/
theorem assign_regs_by_copying_strict_decrease_witness :
    2 ≤ 2 ∧
    (1 : ℕ) < 2 ∧ (∀ k, (1 : ℕ) = 2 ^ k → nextPow2 1 < 2) :=
  ⟨le_refl 2,
    assign_regs_by_copying_strict_decrease ⟨{0, 1, 2, 4, 5, 6}, 8, true⟩ 2 ∅
      (by decide) (by decide) (by decide) (by decide) (by decide) 2 1
      (by decide) (by decide) (by decide)
      (by intro j hj; interval_cases j; decide)⟩

/-! ## C3/C4: the spill decision and the spiller's fatal paths in `agx_ra`

`agx_ra` computes the demand, decides
`spilling = (effective_demand > max_possible_regs)` and additionally
forces spilling under the `AGX_DBG_SPILL` debug override when the program
has a scratch area; a spilling program without a scratch area, or a
recomputed post-spill demand still above the file size, are failed
`assert`s (fatal, no retry). -/

/-- The spill decision of `agx_ra`:
`spilling = (effective_demand > max_possible_regs); spilling |=
((agx_compiler_debug & AGX_DBG_SPILL) && ctx->key->has_scratch)`. -/
def spillingDecision (effectiveDemand maxPossibleRegs : ℕ)
    (dbgSpill hasScratch : Bool) : Bool :=
  decide (effectiveDemand > maxPossibleRegs) || (dbgSpill && hasScratch)

/-- Fatal internal errors of the spill phase (failed `assert`s aborting
compilation). -/
inductive RAFatal
  | unspillable
  | postCondition
deriving DecidableEq, Repr

/-- The demand/spill phase of `agx_ra`: compute the demand, decide
spilling; when spilling, abort if the program has no scratch area
(`"internal shaders are unspillable"`), otherwise transform the program
(`agx_spill_everything`, abstracted here as the `spill` argument),
recompute liveness and demand, and abort if the recomputed demand still
exceeds the file (`"spiller post-condition"`). On success, return the
program to allocate and its effective demand; there is no retry or
partial-success path. -/
def raSpillPhase (spill : Program → Program) (p : Program)
    (maxPossibleRegs : ℕ) (dbgSpill hasScratch : Bool) :
    Except RAFatal (Program × ℕ) :=
  if spillingDecision (calcRegisterDemand p) maxPossibleRegs dbgSpill
      hasScratch then
    if hasScratch = false then .error .unspillable
    else if maxPossibleRegs < calcRegisterDemand (spill p) then
      .error .postCondition
    else .ok (spill p, calcRegisterDemand (spill p))
  else .ok (p, calcRegisterDemand p)

/-- The program mentions no memory-class destination. This holds of
`agx_ra`'s input: memory-class shadow values are introduced only by the
spiller. -/
def NoMemProgram (p : Program) : Prop :=
  ∀ d ∈ progDsts p, d.cls = RAClass.gpr

instance (p : Program) : Decidable (NoMemProgram p) := by
  unfold NoMemProgram; infer_instance

theorem gatherClass_gpr {p : Program} (h : NoMemProgram p) (v : ℕ) :
    gatherClass p v = RAClass.gpr := by
  unfold gatherClass
  cases hfind : (progDsts p).find? (fun d => d.value == v) with
  | none => rfl
  | some d => exact h d (List.mem_of_find?_eq_some hfind)

/-- C3 (counterexample) — the claim fails as stated: even with demand
within the file (10 ≤ 128), the `AGX_DBG_SPILL` debug override together
with an available scratch area forces the spiller to run. -/
theorem spill_debug_override_counterexample :
    (10 : ℕ) ≤ 128 ∧ spillingDecision 10 128 true true = true := by
  decide

/-- C3 (amended) — for every program whose estimated demand is at most the
register-file size, *provided the `AGX_DBG_SPILL` debug override is not
engaged with scratch available*, the spiller does not run (the spill phase
returns the unchanged program) and, the input being memory-free, the final
allocation references no memory-class location (every value's class is
general-purpose). -/
theorem no_spill_when_demand_fits (spill : Program → Program) (p : Program)
    (maxPossibleRegs : ℕ) (dbgSpill hasScratch : Bool)
    (hd : calcRegisterDemand p ≤ maxPossibleRegs)
    (hdbg : ¬(dbgSpill = true ∧ hasScratch = true))
    (hnm : NoMemProgram p) :
    spillingDecision (calcRegisterDemand p) maxPossibleRegs dbgSpill
        hasScratch = false ∧
    raSpillPhase spill p maxPossibleRegs dbgSpill hasScratch
      = .ok (p, calcRegisterDemand p) ∧
    ∀ v, gatherClass p v = RAClass.gpr := by
  have hsd : spillingDecision (calcRegisterDemand p) maxPossibleRegs dbgSpill
      hasScratch = false := by
    unfold spillingDecision
    have h1 : decide (calcRegisterDemand p > maxPossibleRegs) = false := by
      simp
      omega
    have h2 : (dbgSpill && hasScratch) = false := by
      cases dbgSpill with
      | false => rfl
      | true =>
        cases hasScratch with
        | false => rfl
        | true => exact absurd ⟨rfl, rfl⟩ hdbg
    rw [h1, h2]
    rfl
  refine ⟨hsd, ?_, fun v => gatherClass_gpr hnm v⟩
  unfold raSpillPhase
  rw [hsd]
  rfl

/-- Witness for C3 (amended): the two-instruction program of the demand
witness, demand 2 within an 8-register file, no debug override. -/
theorem no_spill_when_demand_fits_witness :
    spillingDecision
        (calcRegisterDemand
          { blocks :=
              [{ live_in := ∅,
                 instrs :=
                  [{ isPhi := false, srcs := [],
                     dsts := [{ value := 0, size16 := 1, cls := RAClass.gpr }] },
                   { isPhi := false,
                     srcs := [{ value := 0, kill := true, cls := RAClass.gpr }],
                     dsts := [{ value := 1, size16 := 2, cls := RAClass.gpr }] }] }],
            any_cf := false }) 8 false true = false ∧
    raSpillPhase id
        { blocks :=
            [{ live_in := ∅,
               instrs :=
                [{ isPhi := false, srcs := [],
                   dsts := [{ value := 0, size16 := 1, cls := RAClass.gpr }] },
                 { isPhi := false,
                   srcs := [{ value := 0, kill := true, cls := RAClass.gpr }],
                   dsts := [{ value := 1, size16 := 2, cls := RAClass.gpr }] }] }],
          any_cf := false } 8 false true
      = .ok
        ({ blocks :=
            [{ live_in := ∅,
               instrs :=
                [{ isPhi := false, srcs := [],
                   dsts := [{ value := 0, size16 := 1, cls := RAClass.gpr }] },
                 { isPhi := false,
                   srcs := [{ value := 0, kill := true, cls := RAClass.gpr }],
                   dsts := [{ value := 1, size16 := 2, cls := RAClass.gpr }] }] }],
           any_cf := false },
         calcRegisterDemand
           { blocks :=
              [{ live_in := ∅,
                 instrs :=
                  [{ isPhi := false, srcs := [],
                     dsts := [{ value := 0, size16 := 1, cls := RAClass.gpr }] },
                   { isPhi := false,
                     srcs := [{ value := 0, kill := true, cls := RAClass.gpr }],
                     dsts := [{ value := 1, size16 := 2, cls := RAClass.gpr }] }] }],
             any_cf := false }) ∧
    ∀ v, gatherClass
        { blocks :=
            [{ live_in := ∅,
               instrs :=
                [{ isPhi := false, srcs := [],
                   dsts := [{ value := 0, size16 := 1, cls := RAClass.gpr }] },
                 { isPhi := false,
                   srcs := [{ value := 0, kill := true, cls := RAClass.gpr }],
                   dsts := [{ value := 1, size16 := 2, cls := RAClass.gpr }] }] }],
          any_cf := false } v = RAClass.gpr :=
  no_spill_when_demand_fits id _ 8 false true (by decide) (by decide) (by decide)

/-- C4 — whenever the spill decision fires, a program without a scratch
area is a fatal internal error (`unspillable`), and a program whose
recomputed post-spill demand still exceeds the register file is a fatal
internal error (`postCondition`); in both cases the phase aborts with an
error, with no retry or partial-success path. -/
theorem ra_spill_fatal_paths (spill : Program → Program) (p : Program)
    (maxPossibleRegs : ℕ) (dbgSpill hasScratch : Bool)
    (hspill : spillingDecision (calcRegisterDemand p) maxPossibleRegs
      dbgSpill hasScratch = true) :
    (hasScratch = false →
      raSpillPhase spill p maxPossibleRegs dbgSpill hasScratch
        = .error .unspillable) ∧
    (hasScratch = true →
      maxPossibleRegs < calcRegisterDemand (spill p) →
      raSpillPhase spill p maxPossibleRegs dbgSpill hasScratch
        = .error .postCondition) := by
  constructor
  · intro hs
    unfold raSpillPhase
    rw [hspill, if_pos rfl, if_pos hs]
  · intro hs hover
    unfold raSpillPhase
    rw [hspill, if_pos rfl, if_neg (by simp [hs]), if_pos hover]

/-- Witness for C4: a one-block program of demand 2 against a 1-register
file without scratch: the phase aborts as unspillable. -/
theorem ra_spill_fatal_paths_witness :
    (false = false →
      raSpillPhase id
        { blocks :=
            [{ live_in := ∅,
               instrs :=
                [{ isPhi := false, srcs := [],
                   dsts := [{ value := 0, size16 := 1, cls := RAClass.gpr }] },
                 { isPhi := false,
                   srcs := [{ value := 0, kill := true, cls := RAClass.gpr }],
                   dsts := [{ value := 1, size16 := 2, cls := RAClass.gpr }] }] }],
          any_cf := false } 1 false false
        = .error .unspillable) ∧
    (false = true →
      1 < calcRegisterDemand (id
        { blocks :=
            [{ live_in := ∅,
               instrs :=
                [{ isPhi := false, srcs := [],
                   dsts := [{ value := 0, size16 := 1, cls := RAClass.gpr }] },
                 { isPhi := false,
                   srcs := [{ value := 0, kill := true, cls := RAClass.gpr }],
                   dsts := [{ value := 1, size16 := 2, cls := RAClass.gpr }] }] }],
          any_cf := false }) →
      raSpillPhase id
        { blocks :=
            [{ live_in := ∅,
               instrs :=
                [{ isPhi := false, srcs := [],
                   dsts := [{ value := 0, size16 := 1, cls := RAClass.gpr }] },
                 { isPhi := false,
                   srcs := [{ value := 0, kill := true, cls := RAClass.gpr }],
                   dsts := [{ value := 1, size16 := 2, cls := RAClass.gpr }] }] }],
          any_cf := false } 1 false false
        = .error .postCondition) :=
  ra_spill_fatal_paths id _ 1 false false (by decide)

/-! ## C8: the SPLIT-of-a-killed-vector special case in `agx_ra_assign_local`

When `I->op == AGX_OPCODE_SPLIT && I->src[0].kill`, the destinations are
assigned on top of the killed source: for each destination index `d` the
sub-range `[reg + d*width, reg + (d+1)*width)` of the source is first
freed (`BITSET_CLEAR_RANGE`) and then, when the destination is non-null,
re-claimed for it via `assign_regs` (each destination's `ncomps` equals
the common `width`); afterwards the excess
`[reg + nr_dests*width, reg + ncomps(src))` is freed. No register search
runs and no copies are emitted on this path. -/

/-- The destination loop of the split special case. `d` is the running
destination index; a `none` entry is a null destination (range freed, not
re-claimed). Returns the updated occupancy bitset and the `(value,
register)` assignments made. -/
def splitKillGo (reg width : ℕ) :
    List (Option ℕ) → ℕ → Finset ℕ → Finset ℕ × List (ℕ × ℕ)
  | [], _, used => (used, [])
  | od :: rest, d, used =>
    match od with
    | none =>
      splitKillGo reg width rest (d + 1)
        (used \ Finset.Ico (reg + d * width) (reg + (d + 1) * width))
    | some v =>
      let r := splitKillGo reg width rest (d + 1)
        ((used \ Finset.Ico (reg + d * width) (reg + (d + 1) * width))
          ∪ Finset.Ico (reg + d * width) (reg + (d + 1) * width))
      (r.1, (v, reg + d * width) :: r.2)

/-- The whole split special case: run the destination loop from index 0,
then free the excess sub-units of the source beyond
`nr_dests * width`. -/
def splitKillStep (used0 : Finset ℕ) (reg width srcComps : ℕ)
    (dsts : List (Option ℕ)) : Finset ℕ × List (ℕ × ℕ) :=
  ((splitKillGo reg width dsts 0 used0).1
     \ Finset.Ico (reg + dsts.length * width) (reg + srcComps),
   (splitKillGo reg width dsts 0 used0).2)

/-- Reference description of the split assignments: destination at index
`d` (when non-null, value `v`) is assigned register `reg + d*width`. -/
def splitAssignsFrom (reg width : ℕ) : ℕ → List (Option ℕ) → List (ℕ × ℕ)
  | _, [] => []
  | d, none :: rest => splitAssignsFrom reg width (d + 1) rest
  | d, some v :: rest =>
    (v, reg + d * width) :: splitAssignsFrom reg width (d + 1) rest

/-- Reference description of the registers occupied by the non-null split
destinations. -/
def splitWindows (reg width : ℕ) : ℕ → List (Option ℕ) → Finset ℕ
  | _, [] => ∅
  | d, none :: rest => splitWindows reg width (d + 1) rest
  | d, some _ :: rest =>
    Finset.Ico (reg + d * width) (reg + (d + 1) * width)
      ∪ splitWindows reg width (d + 1) rest

theorem splitWindows_subset (reg width : ℕ) :
    ∀ (dsts : List (Option ℕ)) (d0 : ℕ) (x : ℕ),
      x ∈ splitWindows reg width d0 dsts →
      reg + d0 * width ≤ x ∧ x < reg + (d0 + dsts.length) * width := by
  intro dsts
  induction dsts with
  | nil => intro d0 x hx; exact absurd hx (Finset.not_mem_empty x)
  | cons od rest ih =>
    intro d0 x hx
    have hlen : (d0 + 1 + rest.length) * width
        = (d0 + (od :: rest).length) * width := by
      have h : d0 + 1 + rest.length = d0 + (od :: rest).length := by
        simp only [List.length_cons]
        omega
      rw [h]
    cases od with
    | none =>
      have h1 := ih (d0 + 1) x hx
      have hmono2 : d0 * width ≤ (d0 + 1) * width :=
        Nat.mul_le_mul_right _ (by omega)
      omega
    | some v =>
      have hmono : (d0 + 1) * width ≤ (d0 + (some v :: rest).length) * width := by
        refine Nat.mul_le_mul_right _ ?_
        simp only [List.length_cons]
        omega
      rcases Finset.mem_union.mp hx with hx | hx
      · have h1 := Finset.mem_Ico.mp hx
        omega
      · have h1 := ih (d0 + 1) x hx
        have hmono2 : d0 * width ≤ (d0 + 1) * width :=
          Nat.mul_le_mul_right _ (by omega)
        omega

theorem splitKillGo_spec (reg width : ℕ) :
    ∀ (dsts : List (Option ℕ)) (d0 : ℕ) (u : Finset ℕ),
      splitKillGo reg width dsts d0 u
        = (u \ Finset.Ico (reg + d0 * width)
              (reg + (d0 + dsts.length) * width)
            ∪ splitWindows reg width d0 dsts,
           splitAssignsFrom reg width d0 dsts) := by
  intro dsts
  induction dsts with
  | nil =>
    intro d0 u
    show (u, []) = _
    simp [splitWindows, splitAssignsFrom]
  | cons od rest ih =>
    intro d0 u
    have hlen : d0 + 1 + rest.length = d0 + (od :: rest).length := by
      simp only [List.length_cons]
      omega
    have hm1 : d0 * width ≤ (d0 + 1) * width :=
      Nat.mul_le_mul_right _ (by omega)
    have hm2 : (d0 + 1) * width ≤ (d0 + 1 + rest.length) * width :=
      Nat.mul_le_mul_right _ (by omega)
    cases od with
    | none =>
      show splitKillGo reg width rest (d0 + 1)
        (u \ Finset.Ico (reg + d0 * width) (reg + (d0 + 1) * width)) = _
      rw [ih (d0 + 1)]
      show ((u \ Finset.Ico (reg + d0 * width) (reg + (d0 + 1) * width))
            \ Finset.Ico (reg + (d0 + 1) * width)
              (reg + (d0 + 1 + rest.length) * width)
          ∪ splitWindows reg width (d0 + 1) rest,
         splitAssignsFrom reg width (d0 + 1) rest)
        = (u \ Finset.Ico (reg + d0 * width)
              (reg + (d0 + (none :: rest).length) * width)
            ∪ splitWindows reg width (d0 + 1) rest,
           splitAssignsFrom reg width (d0 + 1) rest)
      have hfst : (u \ Finset.Ico (reg + d0 * width) (reg + (d0 + 1) * width))
            \ Finset.Ico (reg + (d0 + 1) * width)
              (reg + (d0 + 1 + rest.length) * width)
          = u \ Finset.Ico (reg + d0 * width)
              (reg + (d0 + (none :: rest).length) * width) := by
        rw [← hlen]
        ext x
        simp only [Finset.mem_sdiff, Finset.mem_Ico]
        constructor
        · rintro ⟨⟨hu, hnA⟩, hnB⟩
          exact ⟨hu, by omega⟩
        · rintro ⟨hu, hnC⟩
          exact ⟨⟨hu, by omega⟩, by omega⟩
      rw [hfst]
    | some v =>
      show ((splitKillGo reg width rest (d0 + 1)
            ((u \ Finset.Ico (reg + d0 * width) (reg + (d0 + 1) * width))
              ∪ Finset.Ico (reg + d0 * width) (reg + (d0 + 1) * width))).1,
          (v, reg + d0 * width) :: (splitKillGo reg width rest (d0 + 1)
            ((u \ Finset.Ico (reg + d0 * width) (reg + (d0 + 1) * width))
              ∪ Finset.Ico (reg + d0 * width) (reg + (d0 + 1) * width))).2)
        = _
      rw [ih (d0 + 1)]
      show (((u \ Finset.Ico (reg + d0 * width) (reg + (d0 + 1) * width))
              ∪ Finset.Ico (reg + d0 * width) (reg + (d0 + 1) * width))
            \ Finset.Ico (reg + (d0 + 1) * width)
              (reg + (d0 + 1 + rest.length) * width)
          ∪ splitWindows reg width (d0 + 1) rest,
         (v, reg + d0 * width) :: splitAssignsFrom reg width (d0 + 1) rest)
        = (u \ Finset.Ico (reg + d0 * width)
              (reg + (d0 + (some v :: rest).length) * width)
            ∪ (Finset.Ico (reg + d0 * width) (reg + (d0 + 1) * width)
              ∪ splitWindows reg width (d0 + 1) rest),
           (v, reg + d0 * width) :: splitAssignsFrom reg width (d0 + 1) rest)
      have hfst : ((u \ Finset.Ico (reg + d0 * width) (reg + (d0 + 1) * width))
              ∪ Finset.Ico (reg + d0 * width) (reg + (d0 + 1) * width))
            \ Finset.Ico (reg + (d0 + 1) * width)
              (reg + (d0 + 1 + rest.length) * width)
          ∪ splitWindows reg width (d0 + 1) rest
          = u \ Finset.Ico (reg + d0 * width)
              (reg + (d0 + (some v :: rest).length) * width)
            ∪ (Finset.Ico (reg + d0 * width) (reg + (d0 + 1) * width)
              ∪ splitWindows reg width (d0 + 1) rest) := by
        rw [← hlen]
        ext x
        by_cases hp : x ∈ splitWindows reg width (d0 + 1) rest
        · simp only [Finset.mem_union, hp, or_true]
        · by_cases hu : x ∈ u
          · simp only [Finset.mem_union, Finset.mem_sdiff, Finset.mem_Ico,
              hp, hu, true_and, or_false]
            omega
          · simp only [Finset.mem_union, Finset.mem_sdiff, Finset.mem_Ico,
              hp, hu, false_and, false_or, or_false]
            omega
      rw [hfst]

/-- Membership form of the assignment formula: the destination at index
`d` holding value `v` is assigned register `reg + d*width`. -/
theorem splitAssignsFrom_mem (reg width : ℕ) :
    ∀ (dsts : List (Option ℕ)) (d0 d : ℕ) (v : ℕ),
      dsts[d]? = some (some v) →
      (v, reg + (d0 + d) * width) ∈ splitAssignsFrom reg width d0 dsts := by
  intro dsts
  induction dsts with
  | nil => intro d0 d v h; simp at h
  | cons od rest ih =>
    intro d0 d v h
    cases d with
    | zero =>
      simp at h
      subst h
      simp [splitAssignsFrom]
    | succ d =>
      simp at h
      have := ih (d0 + 1) d v h
      have harith : d0 + 1 + d = d0 + (d + 1) := by omega
      rw [harith] at this
      cases od with
      | none => exact this
      | some v2 =>
        show _ ∈ _ :: splitAssignsFrom reg width (d0 + 1) rest
        exact List.mem_cons_of_mem _ this

/-- C8 — for a SPLIT whose source is killed: the allocator performs no new
register search and emits no copies; each non-null destination `d` is
assigned register `src_reg + d*width`, the destination windows are exactly
re-claimed, and the excess sub-units of the source beyond
`nr_dests * width` are freed from the occupancy bitset. -/
theorem split_kill_reuses_source (used0 : Finset ℕ)
    (reg width srcComps : ℕ) (dsts : List (Option ℕ))
    (hw : 0 < width) (hlen : dsts.length * width ≤ srcComps) :
    splitKillStep used0 reg width srcComps dsts
      = (used0 \ Finset.Ico reg (reg + srcComps)
          ∪ splitWindows reg width 0 dsts,
         splitAssignsFrom reg width 0 dsts) ∧
    ∀ d v, dsts[d]? = some (some v) →
      (v, reg + d * width) ∈ (splitKillStep used0 reg width srcComps dsts).2 := by
  have hgo := splitKillGo_spec reg width dsts 0 used0
  constructor
  · unfold splitKillStep
    rw [hgo]
    show (_, splitAssignsFrom reg width 0 dsts) = _
    have hfst : (used0 \ Finset.Ico (reg + 0 * width)
            (reg + (0 + dsts.length) * width)
          ∪ splitWindows reg width 0 dsts)
          \ Finset.Ico (reg + dsts.length * width) (reg + srcComps)
        = used0 \ Finset.Ico reg (reg + srcComps)
          ∪ splitWindows reg width 0 dsts := by
      ext x
      simp only [Finset.mem_union, Finset.mem_sdiff, Finset.mem_Ico,
        Nat.zero_mul, Nat.add_zero, Nat.zero_add]
      constructor
      · rintro ⟨⟨hu, hnA⟩ | hin, hex⟩
        · exact Or.inl ⟨hu, by omega⟩
        · exact Or.inr hin
      · rintro (⟨hu, hnC⟩ | hin)
        · exact ⟨Or.inl ⟨hu, by omega⟩, by omega⟩
        · refine ⟨Or.inr hin, ?_⟩
          have hsw := splitWindows_subset reg width dsts 0 x hin
          simp only [Nat.zero_mul, Nat.add_zero, Nat.zero_add] at hsw
          omega
    rw [hfst]
  · intro d v h
    unfold splitKillStep
    rw [hgo]
    have := splitAssignsFrom_mem reg width dsts 0 d v h
    rw [Nat.zero_add] at this
    exact this

/-- Witness for C8: a 4-wide killed source at `r0` split into three width-1
destinations (`v10`, null, `v11`): `v10` lands at `r0`, `v11` at `r2`, the
null lane `r1` and the excess `r3` are freed. -/
theorem split_kill_reuses_source_witness :
    splitKillStep (Finset.Ico 0 4) 0 1 4 [some 10, none, some 11]
      = (Finset.Ico 0 4 \ Finset.Ico 0 (0 + 4)
          ∪ splitWindows 0 1 0 [some 10, none, some 11],
         splitAssignsFrom 0 1 0 [some 10, none, some 11]) ∧
    ∀ d v, [some 10, none, some 11][d]? = some (some v) →
      (v, 0 + d * 1)
        ∈ (splitKillStep (Finset.Ico 0 4) 0 1 4 [some 10, none, some 11]).2 :=
  split_kill_reuses_source (Finset.Ico 0 4) 0 1 4 [some 10, none, some 11]
    (by decide) (by decide)

/-! ## C9: lowering phis to parallel copies (`agx_insert_parallel_copies`)

A block's successors are modelled as the list of `(phi list, predecessor
index)` pairs, where the index is `agx_predecessor_index(succ, block)`.
Each phi carries its already-assigned destination register and one source
register per predecessor edge (size and memory-flag bookkeeping, carried
through unchanged by the C code, is omitted). The two critical-edge
`assert`s are modelled as a fatal error. -/

/-- A phi node of a successor block after register assignment. -/
structure PhiNode where
  dest : ℕ
  srcs : List ℕ
deriving DecidableEq, Repr

/-- One register-to-register copy of a parallel copy instruction. -/
structure Copy where
  dest : ℕ
  src : ℕ
deriving DecidableEq, Repr

/-- The successor walk of `agx_insert_parallel_copies`, carrying `any_succ`
and `nr_phi` exactly as the C loop does: a successor reached while
`nr_phi != 0`, or a phi found after a previous successor, is a
critical-edge violation (failed `assert`); a phi-bearing successor emits
one parallel copy containing `dest := src[pred_index]` for each phi, at
the block's logical end (the embedding returns the emitted instructions in
program order). -/
def insertParallelCopiesGo :
    List (List PhiNode × ℕ) → Bool → ℕ → List (List Copy) →
    Except Unit (List (List Copy))
  | [], _, _, acc => .ok acc.reverse
  | (phis, predIdx) :: rest, anySucc, nrPhi, acc =>
    if nrPhi ≠ 0 then .error ()
    else if anySucc = true ∧ phis ≠ [] then .error ()
    else if phis = [] then insertParallelCopiesGo rest true 0 acc
    else
      insertParallelCopiesGo rest true phis.length
        ((phis.map (fun p => Copy.mk p.dest (p.srcs.getD predIdx 0))) :: acc)

/-- The resolver `agx_insert_parallel_copies` for one block. -/
def agx_insert_parallel_copies (succs : List (List PhiNode × ℕ)) :
    Except Unit (List (List Copy)) :=
  insertParallelCopiesGo succs false 0 []

/-- Modelled from the spec: the semantics of `agx_emit_parallel_copies`
(its definition lives outside this repository snapshot's sources): all
sources are read logically before any destination is written, so the new
register state maps each copy's destination to the old value of its source
and leaves every other register unchanged. -/
def applyParallelCopy (cs : List Copy) (regs : ℕ → ℕ) : ℕ → ℕ :=
  fun r =>
    match cs.find? (fun c => c.dest == r) with
    | some c => regs c.src
    | none => regs r

theorem applyParallelCopy_reads_old (cs : List Copy) (regs : ℕ → ℕ)
    (hnd : (cs.map (fun c => c.dest)).Nodup) :
    ∀ c ∈ cs, applyParallelCopy cs regs c.dest = regs c.src := by
  induction cs with
  | nil => intro c hc; cases hc
  | cons c0 rest ih =>
    intro c hc
    rcases List.mem_cons.mp hc with rfl | hcr
    · have hp : (c.dest == c.dest) = true := by simp
      show (match (c :: rest).find? (fun x => x.dest == c.dest) with
        | some x => regs x.src
        | none => regs c.dest) = regs c.src
      rw [List.find?_cons, hp]
    · have hnd' := (List.nodup_cons.mp hnd).2
      have hne : (c0.dest == c.dest) = false := by
        simp only [beq_eq_false_iff_ne, ne_eq]
        intro he
        have hmem : c0.dest ∈ rest.map (fun x => x.dest) :=
          he ▸ List.mem_map_of_mem _ hcr
        exact (List.nodup_cons.mp hnd).1 hmem
      show (match (c0 :: rest).find? (fun x => x.dest == c.dest) with
        | some x => regs x.src
        | none => regs c.dest) = regs c.src
      rw [List.find?_cons, hne]
      exact ih hnd' c hcr

/-- A critical edge is fatal: helper for the walk with `any_succ` already
set. -/
theorem insertParallelCopiesGo_critical :
    ∀ (l : List (List PhiNode × ℕ)) (acc : List (List Copy)),
      (∃ s ∈ l, s.1 ≠ []) →
      insertParallelCopiesGo l true 0 acc = .error () := by
  intro l
  induction l with
  | nil => rintro acc ⟨s, hs, _⟩; cases hs
  | cons a rest ih =>
    rintro acc ⟨s, hs, hsne⟩
    obtain ⟨phis, predIdx⟩ := a
    show (if (0 : ℕ) ≠ 0 then _
      else if true = true ∧ phis ≠ [] then Except.error ()
      else if phis = [] then insertParallelCopiesGo rest true 0 acc
      else _) = Except.error ()
    rw [if_neg (by omega)]
    by_cases hp : phis = []
    · rw [if_neg (by simp [hp]), if_pos hp]
      refine ih acc ⟨s, ?_, hsne⟩
      rcases List.mem_cons.mp hs with rfl | hsr
      · exact absurd hp hsne
      · exact hsr
    · rw [if_pos ⟨rfl, hp⟩]

/-- C9 — (i) a block whose single successor carries phis gets exactly one
parallel-copy instruction, holding one copy per phi from the phi's operand
slot for this predecessor edge to the phi's destination register; (ii) a
block with two or more successors one of which carries phis is a fatal
critical-edge violation, so a phi-bearing successor is necessarily the
block's only successor; (iii) the parallel copy has simultaneous-read
semantics: with pairwise-distinct destinations, every destination receives
the old value of its source, so phis swapping overlapping registers
produce a correct swap. -/
theorem insert_parallel_copies_spec (phis : List PhiNode) (k : ℕ)
    (succs : List (List PhiNode × ℕ)) (hne : phis ≠ []) :
    (agx_insert_parallel_copies [(phis, k)]
      = .ok [phis.map (fun p => Copy.mk p.dest (p.srcs.getD k 0))]) ∧
    (2 ≤ succs.length → (∃ s ∈ succs, s.1 ≠ []) →
      agx_insert_parallel_copies succs = .error ()) ∧
    (∀ (cs : List Copy) (regs : ℕ → ℕ),
      (cs.map (fun c => c.dest)).Nodup →
      ∀ c ∈ cs, applyParallelCopy cs regs c.dest = regs c.src) := by
  refine ⟨?_, ?_, fun cs regs hnd => applyParallelCopy_reads_old cs regs hnd⟩
  · unfold agx_insert_parallel_copies insertParallelCopiesGo
    rw [if_neg (by omega), if_neg (by simp), if_neg hne]
    unfold insertParallelCopiesGo
    rfl
  · intro hlen hex
    cases succs with
    | nil => simp at hlen
    | cons a rest =>
      obtain ⟨aphis, apredIdx⟩ := a
      unfold agx_insert_parallel_copies insertParallelCopiesGo
      rw [if_neg (by omega), if_neg (by simp)]
      by_cases hp : aphis = []
      · rw [if_pos hp]
        refine insertParallelCopiesGo_critical rest [] ?_
        obtain ⟨s, hs, hsne⟩ := hex
        rcases List.mem_cons.mp hs with rfl | hsr
        · exact absurd hp hsne
        · exact ⟨s, hsr, hsne⟩
      · rw [if_neg hp]
        cases rest with
        | nil => simp at hlen
        | cons b rest2 =>
          obtain ⟨bphis, bpredIdx⟩ := b
          unfold insertParallelCopiesGo
          rw [if_pos (by simpa [List.length_eq_zero] using hp)]

/-- Witness for C9: successor with two phis swapping `r1` and `r2`; a
two-successor variant is fatal. -/
theorem insert_parallel_copies_spec_witness :
    (agx_insert_parallel_copies [([⟨1, [2]⟩, ⟨2, [1]⟩], 0)]
      = .ok [[Copy.mk 1 2, Copy.mk 2 1]]) ∧
    (2 ≤ ([([⟨1, [2]⟩], 0), ([], 1)] :
        List (List PhiNode × ℕ)).length →
      (∃ s ∈ ([([⟨1, [2]⟩], 0), ([], 1)] :
        List (List PhiNode × ℕ)), s.1 ≠ []) →
      agx_insert_parallel_copies [([⟨1, [2]⟩], 0), ([], 1)] = .error ()) ∧
    (∀ (cs : List Copy) (regs : ℕ → ℕ),
      (cs.map (fun c => c.dest)).Nodup →
      ∀ c ∈ cs, applyParallelCopy cs regs c.dest = regs c.src) :=
  insert_parallel_copies_spec [⟨1, [2]⟩, ⟨2, [1]⟩] 0
    [([⟨1, [2]⟩], 0), ([], 1)] (by decide)

/-! ## C10: the per-class high-water marks

`set_ssa_to_reg` maintains
`*max_reg[cls] = MAX2(*max_reg[cls], reg + ncomps[ssa] - 1)` across every
assignment (including relocation re-homes, whose old and new locations are
both referenced by the emitted copies); at the end of `agx_ra`, vertex
shaders additionally force `ctx->max_reg` to at least `6*2 = 12` sub-units
for the implicit vertex/instance-ID preloads. -/

/-- The mark update of `set_ssa_to_reg`. -/
def set_ssa_to_reg_max (maxReg reg ncomps : ℕ) : ℕ :=
  max maxReg (reg + ncomps - 1)

/-- Folding the mark over a block-ordered sequence of `(reg, ncomps)`
assignments, from the initial mark. -/
def runMaxReg (init : ℕ) (assigns : List (ℕ × ℕ)) : ℕ :=
  assigns.foldl (fun m a => set_ssa_to_reg_max m a.1 a.2) init

/-- The reference quantity: the maximum sub-unit index any assignment
actually uses (`0` when nothing is assigned). -/
def specMaxUsed (assigns : List (ℕ × ℕ)) : ℕ :=
  (assigns.map (fun a => a.1 + a.2 - 1)).foldl max 0

/-- The driver's final adjustment in `agx_ra`: vertex shaders raise the
register mark to at least `6*2` so the preload does not clobber GPRs. -/
def finalMaxReg (stageVertex : Bool) (m : ℕ) : ℕ :=
  if stageVertex then max m 12 else m

/-- C10 (counterexample) — for a vertex shader whose assignments only ever
use sub-units `r0`/`r1` (maximum used index 1), `agx_ra` records 12, not
1: the recorded mark is not "exactly what was used, no more". -/
theorem ra_max_marks_vertex_counterexample :
    finalMaxReg true (runMaxReg 0 [(0, 2)]) = 12 ∧
    specMaxUsed [(0, 2)] = 1 ∧
    finalMaxReg true (runMaxReg 0 [(0, 2)]) ≠ specMaxUsed [(0, 2)] := by
  decide

/-- C10 (amended) — the recorded general-purpose mark equals exactly the
maximum sub-unit index used by the assignments, except that vertex shaders
raise it to at least 12 for the implicit vertex/instance-ID preloads; the
memory-slot mark (never adjusted) is exact for every stage. -/
theorem ra_max_marks_exact (gprAssigns memAssigns : List (ℕ × ℕ))
    (stageVertex : Bool) :
    finalMaxReg stageVertex (runMaxReg 0 gprAssigns)
      = (if stageVertex then max (specMaxUsed gprAssigns) 12
         else specMaxUsed gprAssigns) ∧
    runMaxReg 0 memAssigns = specMaxUsed memAssigns := by
  have key : ∀ (as : List (ℕ × ℕ)), runMaxReg 0 as = specMaxUsed as := by
    intro as
    unfold runMaxReg specMaxUsed set_ssa_to_reg_max
    rw [← List.foldl_map (fun a : ℕ × ℕ => a.1 + a.2 - 1) max]
  rw [key gprAssigns, key memAssigns]
  unfold finalMaxReg
  exact ⟨rfl, rfl⟩

/-! ## C7: `insert_copies_for_clobbered_killed` — packing killed sources

After the window `[reg, reg + count)` is claimed for the new destination,
the killed sources whose registers were clobbered are collected (at most
16, the maximum variable size, per the `nr_vars < ARRAY_SIZE(vars)`
assert), sorted by descending size (`util_qsort_r` with `sort_by_size`,
which compares the `agx_size` enum, hence by descending alignment), and
packed consecutively from the window base, emitting one copy per
`align`-sized chunk. A scalar of `agx_size` enum `s` spans `2^s` 16-bit
sub-units (`agx_size_align_16`). -/

/-- A collected killed-and-clobbered source: its current base register
(`ssa_to_reg`), width (`ncomps`) and scalar size class (`agx_size`). -/
structure KilledVar where
  base : ℕ
  count : ℕ
  size : ℕ
deriving DecidableEq, Repr

/-- The helper `agx_size_align_16`: 16/32/64-bit scalars span 1/2/4 sub-units. -/
def sizeAlign16 (size : ℕ) : ℕ := 2 ^ size

/-- Result of the packing loop: the emitted copies, the new `(variable,
placement register)` assignments, and the final running base. -/
structure PackResult where
  copies : List Copy
  assigns : List (KilledVar × ℕ)
  base : ℕ
deriving DecidableEq, Repr

/-- The reassignment loop of `insert_copies_for_clobbered_killed`: place
each variable at the running `base`, emit a copy per `var_align` chunk
(`for (j = 0; j < var_count; j += var_align)`), update the mapping, and
advance `base` by `var_count`. -/
def packKilledGo : List KilledVar → ℕ → PackResult
  | [], base => ⟨[], [], base⟩
  | v :: rest, base =>
    let r := packKilledGo rest (base + v.count)
    ⟨(List.range (v.count / sizeAlign16 v.size)).map
        (fun j => Copy.mk (base + j * sizeAlign16 v.size)
          (v.base + j * sizeAlign16 v.size))
      ++ r.copies,
     (v, base) :: r.assigns,
     r.base⟩

/-- The function `insert_copies_for_clobbered_killed`, after source collection: sort
the collected variables by descending size and pack them from the window
base `reg`. -/
def insert_copies_for_clobbered_killed (reg : ℕ) (vars : List KilledVar) :
    PackResult :=
  packKilledGo (vars.mergeSort (fun a b => decide (b.size ≤ a.size))) reg

theorem packKilledGo_spec :
    ∀ (vars : List KilledVar) (base : ℕ),
      (∀ v ∈ vars, sizeAlign16 v.size ∣ base) →
      (∀ v ∈ vars, sizeAlign16 v.size ∣ v.count) →
      vars.Pairwise (fun a b => b.size ≤ a.size) →
      (packKilledGo vars base).base
          = base + (vars.map (fun v => v.count)).sum ∧
      ∀ p ∈ (packKilledGo vars base).assigns,
        sizeAlign16 p.1.size ∣ p.2 ∧
        p.2 + p.1.count ≤ base + (vars.map (fun v => v.count)).sum := by
  intro vars
  induction vars with
  | nil =>
    intro base _ _ _
    refine ⟨by simp [packKilledGo], ?_⟩
    intro p hp
    simp [packKilledGo] at hp
  | cons v rest ih =>
    intro base halgn hdvd hsorted
    have hhead := List.pairwise_cons.mp hsorted
    have halgn' : ∀ x ∈ rest, sizeAlign16 x.size ∣ base + v.count := by
      intro x hx
      refine Nat.dvd_add (halgn x (List.mem_cons_of_mem _ hx)) ?_
      have hsz : x.size ≤ v.size := hhead.1 x hx
      exact dvd_trans (pow_dvd_pow 2 hsz) (hdvd v (List.mem_cons_self _ _))
    have hdvd' : ∀ x ∈ rest, sizeAlign16 x.size ∣ x.count :=
      fun x hx => hdvd x (List.mem_cons_of_mem _ hx)
    obtain ⟨hbase, hassigns⟩ := ih (base + v.count) halgn' hdvd' hhead.2
    have hsum : ((v :: rest).map (fun x => x.count)).sum
        = v.count + (rest.map (fun x => x.count)).sum := by
      simp
    constructor
    · show (packKilledGo rest (base + v.count)).base = _
      rw [hbase, hsum]
      omega
    · intro p hp
      rcases List.mem_cons.mp hp with rfl | hpr
      · constructor
        · exact halgn v (List.mem_cons_self _ _)
        · show base + v.count
            ≤ base + ((v :: rest).map (fun x => x.count)).sum
          rw [hsum]
          omega
      · obtain ⟨ha, hb⟩ := hassigns p hpr
        rw [hsum]
        exact ⟨ha, by omega⟩

/-- C7 — with the collected killed-and-clobbered sources fitting in the
window (their total width at most `count`, the C comment's
`k + |dest| - k = |dest|` argument), the window base aligned for every
collected source (the destination's alignment dominates), and widths
multiples of their alignment (`"no partial variables"`): the packing
places the sources consecutively from the window base, every placement
aligned to its variable's alignment and contained in the window, and the
final offset never exceeds `reg + count` (no overflow). -/
theorem insert_copies_for_clobbered_killed_spec (reg count : ℕ)
    (vars : List KilledVar)
    (hmax : vars.length ≤ 16)
    (hsum : (vars.map (fun v => v.count)).sum ≤ count)
    (halgn : ∀ v ∈ vars, sizeAlign16 v.size ∣ reg)
    (hdvd : ∀ v ∈ vars, sizeAlign16 v.size ∣ v.count) :
    (insert_copies_for_clobbered_killed reg vars).base ≤ reg + count ∧
    ∀ p ∈ (insert_copies_for_clobbered_killed reg vars).assigns,
      sizeAlign16 p.1.size ∣ p.2 ∧ p.2 + p.1.count ≤ reg + count := by
  have hperm := List.mergeSort_perm vars (fun a b => decide (b.size ≤ a.size))
  have hsorted : (vars.mergeSort (fun a b => decide (b.size ≤ a.size))).Pairwise
      (fun a b => b.size ≤ a.size) := by
    have h : (vars.mergeSort (fun a b => decide (b.size ≤ a.size))).Pairwise
        (fun a b : KilledVar => (decide (b.size ≤ a.size)) = true) :=
      List.sorted_mergeSort
        (fun a b c h1 h2 => by
          simp only [decide_eq_true_eq] at *
          omega)
        (fun a b => by
          simp only [Bool.or_eq_true, decide_eq_true_eq]
          omega)
        vars
    exact h.imp (fun hab => by simpa using hab)
  have hsum' : ((vars.mergeSort (fun a b => decide (b.size ≤ a.size))).map
      (fun v => v.count)).sum ≤ count := by
    rw [(hperm.map (fun v => v.count)).sum_eq]
    exact hsum
  have halgn' : ∀ v ∈ vars.mergeSort (fun a b => decide (b.size ≤ a.size)),
      sizeAlign16 v.size ∣ reg :=
    fun v hv => halgn v (hperm.mem_iff.mp hv)
  have hdvd' : ∀ v ∈ vars.mergeSort (fun a b => decide (b.size ≤ a.size)),
      sizeAlign16 v.size ∣ v.count :=
    fun v hv => hdvd v (hperm.mem_iff.mp hv)
  obtain ⟨hbase, hassigns⟩ := packKilledGo_spec
    (vars.mergeSort (fun a b => decide (b.size ≤ a.size))) reg halgn' hdvd'
    hsorted
  constructor
  · show (packKilledGo _ reg).base ≤ reg + count
    rw [hbase]
    omega
  · intro p hp
    obtain ⟨ha, hb⟩ := hassigns p hp
    exact ⟨ha, by omega⟩

/-- Witness for C7: a 32-bit pair and a 16-bit scalar (total width 3)
packed into a 4-wide window at `r8`: the pair lands at `r8`, the scalar at
`r10`, final offset 11 ≤ 12. -/
theorem insert_copies_for_clobbered_killed_spec_witness :
    (insert_copies_for_clobbered_killed 8
        [⟨0, 1, 0⟩, ⟨4, 2, 1⟩]).base ≤ 8 + 4 ∧
    ∀ p ∈ (insert_copies_for_clobbered_killed 8
        [⟨0, 1, 0⟩, ⟨4, 2, 1⟩]).assigns,
      sizeAlign16 p.1.size ∣ p.2 ∧ p.2 + p.1.count ≤ 8 + 4 :=
  insert_copies_for_clobbered_killed_spec 8 4 [⟨0, 1, 0⟩, ⟨4, 2, 1⟩]
    (by decide) (by decide) (by decide) (by decide)

end AgxRA
